import Mathlib

/-!
Verification of the EIP-712 typed-data hasher (`eip-712/src/hasher.rs`,
`eip-712/src/types.rs`) and the Ethereum transaction pre-image encoder
(`blockchain-transaction-types/src/models/ethereum_transaction.rs`) of the
bitski-common-rs repository, as a shallow embedding in Lean.

Bytes are modelled as `Nat` values `< 256` kept in `List Nat`; Keccak lanes
are `Nat` values reduced modulo `2 ^ 64`.
-/

set_option maxRecDepth 100000
set_option exponentiation.threshold 1400

namespace BitskiCommon

/-! ## Keccak-256

Model of `tiny_keccak::Keccak::v256()` / `web3::signing::keccak256`:
the standard Keccak-256 (pre-NIST padding byte `0x01`, rate 136, 32-byte
output).  The 25-lane state is stored as a single 1600-bit number, lane
`(x, y)` (64 bits, index `i = x + 5*y`) at bits `64*i .. 64*i + 63`. -/

def mask64 : Nat := 2 ^ 64 - 1

def rotl64 (n r : Nat) : Nat := ((n <<< r) ||| (n >>> (64 - r))) % 2 ^ 64

/-- Round constants for the 24 rounds of Keccak-f[1600]. -/
def keccakRC : List Nat :=
  [0x0000000000000001, 0x0000000000008082, 0x800000000000808a, 0x8000000080008000,
   0x000000000000808b, 0x0000000080000001, 0x8000000080008081, 0x8000000000008009,
   0x000000000000008a, 0x0000000000000088, 0x0000000080008009, 0x000000008000000a,
   0x000000008000808b, 0x800000000000008b, 0x8000000000008089, 0x8000000000008003,
   0x8000000000008002, 0x8000000000000080, 0x000000000000800a, 0x800000008000000a,
   0x8000000080008081, 0x8000000000008080, 0x0000000080000001, 0x8000000080008008]

/-- Rotation offsets of the rho step, indexed by `x + 5*y`. -/
def keccakRho : List Nat :=
  [0, 1, 62, 28, 27] ++ [36, 44, 6, 55, 20] ++ [3, 10, 43, 25, 39] ++
    [41, 45, 15, 21, 8] ++ [18, 2, 61, 56, 14]

/-- Destination index of the pi step for the lane at index `i = x + 5*y`:
`B[y, 2x+3y]`. -/
def keccakPiDest (i : Nat) : Nat :=
  let x := i % 5
  let y := i / 5
  y + 5 * ((2 * x + 3 * y) % 5)

/-- Lane `i` (`i = x + 5*y`) of a state stored as a single 1600-bit
number holding lane `i` at bits `64*i .. 64*i + 63`. -/
def laneAt (S i : Nat) : Nat := (S >>> (64 * i)) &&& mask64

/-- The theta step: xor every lane of column `x` with
`D[x] = C[x-1] ^^^ rotl(C[x+1], 1)`; multiplying the 320-bit row of the
five `D` lanes by `1 + 2^320 + ... + 2^1280` replicates it over the five
rows. -/
def keccakTheta (S : Nat) : Nat :=
  let C := (List.range 5).map fun x =>
    laneAt S x ^^^ laneAt S (x + 5) ^^^ laneAt S (x + 10) ^^^
      laneAt S (x + 15) ^^^ laneAt S (x + 20)
  let D := (List.range 5).map fun x =>
    C.getD ((x + 4) % 5) 0 ^^^ rotl64 (C.getD ((x + 1) % 5) 0) 1
  let Drow := D.foldr (fun d acc => d + (acc <<< 64)) 0
  S ^^^ Drow * (1 + 2 ^ 320 + 2 ^ 640 + 2 ^ 960 + 2 ^ 1280)

/-- The rho and pi steps: rotate lane `i` by its offset and move it to
`keccakPiDest i`. -/
def keccakRhoPi (S : Nat) : Nat :=
  (List.range 25).foldl (fun acc i =>
    acc ||| (rotl64 (laneAt S i) (keccakRho.getD i 0) <<< (64 * keccakPiDest i))) 0

/-- The chi step: `A[i] = B[i] ^^^ (¬B[x+1,y] &&& B[x+2,y])`. -/
def keccakChi (S : Nat) : Nat :=
  (List.range 25).foldl (fun acc i =>
    let x := i % 5
    let y := i / 5
    acc ||| ((laneAt S i ^^^ ((laneAt S ((x + 1) % 5 + 5 * y) ^^^ mask64) &&&
      laneAt S ((x + 2) % 5 + 5 * y))) <<< (64 * i))) 0

/-- One round: theta, rho, pi, chi, then iota (xor the round constant
into lane 0). -/
def keccakRound (A rc : Nat) : Nat := keccakChi (keccakRhoPi (keccakTheta A)) ^^^ rc

/-- `natSeq a b = b`; matching on `a` first makes the kernel normalize
`a` before it touches `b`, so iterating rounds evaluates each state to a
literal in turn instead of recursing through all rounds at once. -/
def natSeq (a b : Nat) : Nat := if a = 0 then b else b

def keccakP (A : Nat) : Nat :=
  keccakRC.foldl (fun A rc => natSeq A (keccakRound A rc)) A

/-- Assemble a 64-bit lane from up to 8 bytes, little-endian. -/
def bytesToLane (bs : List Nat) : Nat := bs.foldr (fun b acc => b + 256 * acc) 0

/-- Keccak `pad10*1` padding (with the `0x01` domain byte of legacy Keccak)
for a message of length `len`, rate 136 bytes. -/
def keccakPad (len : Nat) : List Nat :=
  let r := 136 - len % 136
  if r = 1 then [0x81] else 0x01 :: (List.replicate (r - 2) 0 ++ [0x80])

def keccakAbsorbBlock (S : Nat) (block : List Nat) : Nat :=
  let lanes := (List.range 17).map fun i => bytesToLane ((block.drop (8 * i)).take 8)
  keccakP (S ^^^ lanes.foldr (fun l acc => l + (acc <<< 64)) 0)

/-- Keccak-256 of a byte list: absorb the padded message into the all-zero
state and squeeze the first 32 bytes (the state is little-endian per lane,
so these are the low 32 bytes of the state number). -/
def keccak256 (msg : List Nat) : List Nat :=
  let p := msg ++ keccakPad msg.length
  let blocks := (List.range (p.length / 136)).map fun i => (p.drop (136 * i)).take 136
  let S := blocks.foldl keccakAbsorbBlock 0
  (List.range 32).map fun i => (S >>> (8 * i)) % 256

/-- UTF-8 encoding of a character (`str::as_bytes` in Rust). -/
def utf8Char (c : Char) : List Nat :=
  let n := c.toNat
  if n < 0x80 then [n]
  else if n < 0x800 then [0xC0 ||| (n >>> 6), 0x80 ||| (n &&& 0x3F)]
  else if n < 0x10000 then
    [0xE0 ||| (n >>> 12), 0x80 ||| ((n >>> 6) &&& 0x3F), 0x80 ||| (n &&& 0x3F)]
  else
    [0xF0 ||| (n >>> 18), 0x80 ||| ((n >>> 12) &&& 0x3F),
     0x80 ||| ((n >>> 6) &&& 0x3F), 0x80 ||| (n &&& 0x3F)]

/-- UTF-8 bytes of a string. -/
def strBytes (s : String) : List Nat := s.data.flatMap utf8Char

/-- Sanity check: the Keccak-256 of the empty input. -/
theorem keccak256_nil :
    keccak256 [] =
      [0xc5, 0xd2, 0x46, 0x01, 0x86, 0xf7, 0x23, 0x3c, 0x92, 0x7e, 0x7d, 0xb2,
       0xdc, 0xc7, 0x03, 0xc0, 0xe5, 0x00, 0xb6, 0x53, 0xca, 0x82, 0x27, 0x3b,
       0x7b, 0xfa, 0xd8, 0x04, 0x5d, 0x85, 0xa4, 0x70] := by decide

/-- Sanity check: the Keccak-256 of the canonical `Mail` `encodeType` string,
the `typeHash` asserted by the repository's `hasher_type_hash` test. -/
theorem keccak256_mail_type :
    keccak256 (strBytes
        "Mail(Person from,Person to,string contents)Person(string name,address wallet)") =
      [0xa0, 0xce, 0xde, 0xb2, 0xdc, 0x28, 0x0b, 0xa3, 0x9b, 0x85, 0x75, 0x46,
       0xd7, 0x4f, 0x55, 0x49, 0xc3, 0xa1, 0xd7, 0xbd, 0xc2, 0xdd, 0x96, 0xbf,
       0x88, 0x1f, 0x76, 0x10, 0x8e, 0x23, 0xda, 0xc2] := by decide

/-! ## Byte and numeral helpers

Counterparts of the `num` crate's big-integer byte conversions and of the
hex parsing done by the `hex`, `uint` and `num` dependencies. -/

/-- Minimal big-endian bytes of a natural number; empty for zero.  The first
argument is recursion fuel, always called with `fuel > n`. -/
def natBytesBEAux : Nat → Nat → List Nat
  | 0, _ => []
  | fuel + 1, n => if n = 0 then [] else natBytesBEAux fuel (n / 256) ++ [n % 256]

/-- Minimal big-endian byte representation; `[]` for `0`. -/
def minBytesBE (n : Nat) : List Nat := natBytesBEAux (n + 1) n

/-- `num::BigUint::to_bytes_be`: minimal big-endian bytes, `[0]` for zero. -/
def bigUintToBytesBE (n : Nat) : List Nat := if n = 0 then [0] else minBytesBE n

/-- `num::BigInt::to_signed_bytes_be`: minimal two's-complement big-endian
bytes (`[0]` for zero, `[0xff]` for `-1`, `[0, 0xff]` for `255`, ...). -/
def bigIntToSignedBytesBE (i : Int) : List Nat :=
  if 0 ≤ i then
    let bs := bigUintToBytesBE i.toNat
    if 128 ≤ bs.headD 0 then 0 :: bs else bs
  else
    let m := (-i).toNat
    let bs := minBytesBE m
    let k := if bs.headD 0 < 128 || (bs.headD 0 = 128 && bs.tail.all (· = 0)) then
      bs.length else bs.length + 1
    minBytesBE (2 ^ (8 * k) - m)

/-- Left-pad a byte list with zeros to 32 bytes (`U256::to_big_endian`). -/
def pad32 (bs : List Nat) : List Nat := List.replicate (32 - bs.length) 0 ++ bs

/-- Left-pad a byte list with zeros to 20 bytes (an `H160` address). -/
def pad20 (bs : List Nat) : List Nat := List.replicate (20 - bs.length) 0 ++ bs

/-- The all-zero 32-byte slot. -/
def zeros32 : List Nat := List.replicate 32 0

/-- Value of a hexadecimal digit character, if any. -/
def hexDigit? (c : Char) : Option Nat :=
  if 48 ≤ c.toNat && c.toNat ≤ 57 then some (c.toNat - 48)
  else if 97 ≤ c.toNat && c.toNat ≤ 102 then some (c.toNat - 87)
  else if 65 ≤ c.toNat && c.toNat ≤ 70 then some (c.toNat - 55)
  else none

/-- `num::BigUint::parse_bytes(s, 16)`: non-empty hexadecimal digit string
(either letter case) to a natural number. -/
def parseBigUintHex (s : String) : Option Nat :=
  if s.data.isEmpty then none
  else s.data.foldl
    (fun acc c => match acc, hexDigit? c with
      | some a, some d => some (16 * a + d)
      | _, _ => none)
    (some 0)

/-- `hex::FromHex for Vec<u8>`: even-length hexadecimal string to bytes. -/
def hexDecode (s : String) : Option (List Nat) :=
  if s.data.length % 2 = 0 then
    let rec go : List Char → Option (List Nat)
      | [] => some []
      | [_] => none
      | c1 :: c2 :: rest =>
        match hexDigit? c1, hexDigit? c2, go rest with
        | some d1, some d2, some bs => some ((16 * d1 + d2) :: bs)
        | _, _, _ => none
    go s.data
  else none

/-- `str::strip_prefix("0x").unwrap_or(s)` (ASCII, so char-wise is exact). -/
def strip0x (s : String) : String :=
  match s.data with
  | '0' :: 'x' :: rest => String.mk rest
  | _ => s

/-- `ethereum_types::U256`'s `FromStr` (hexadecimal): optional `0x` prefix,
at most 64 hex digits, big-endian value; the empty digit string is zero. -/
def u256FromStrHex (s : String) : Option Nat :=
  let t := strip0x s
  if t.data.length ≤ 64 then
    t.data.foldl
      (fun acc c => match acc, hexDigit? c with
        | some a, some d => some (16 * a + d)
        | _, _ => none)
      (some 0)
  else none

/-- `usize::from_str_radix(s, 10)`: an optional leading `+`, then one or
more decimal digits, rejecting values that overflow 64-bit `usize`. -/
def parseUsize (s : String) : Option Nat :=
  let digits := match s.data with
    | '+' :: rest => rest
    | l => l
  if digits.isEmpty then none
  else if digits.all (fun c => 48 ≤ c.toNat && c.toNat ≤ 57) then
    let v := digits.foldl (fun acc c => 10 * acc + (c.toNat - 48)) 0
    if v < 2 ^ 64 then some v else none
  else none

/-! ## Type grammar (`eip-712/src/types.rs`)

`Type<'a>` with its borrowed name strings becomes `Ty` with owned `String`
fields; the zero-copy borrowing is a Rust implementation detail with no
observable effect on values. -/

inductive Ty where
  | address : Ty
  | bool : Ty
  | bytes : Ty
  | string : Ty
  | uint (size : Nat) (name : String) : Ty
  | int (size : Nat) (name : String) : Ty
  | fixedBytes (size : Nat) (name : String) : Ty
  | fixedArray (size : Nat) (name : String) (fullName : String) : Ty
  | array (name : String) (fullName : String) : Ty
  | struct (name : String) : Ty
deriving DecidableEq, Repr

/-- The `PRIMITIVE_TYPES` table of `eip-712/src/types.rs`: `bytes1..bytes32`,
`int8, int16, ..., int256`, `uint8, ..., uint256` (all 32 widths that are
multiples of 8), plus `address`, `bool`, `string` and `bytes`. -/
def primitiveTypes : List (String × Ty) :=
  ((List.range 32).map fun i =>
    let s := i + 1
    ("bytes" ++ toString s, Ty.fixedBytes s ("bytes" ++ toString s)))
  ++ ((List.range 32).map fun i =>
    let s := 8 * (i + 1)
    ("int" ++ toString s, Ty.int s ("int" ++ toString s)))
  ++ ((List.range 32).map fun i =>
    let s := 8 * (i + 1)
    ("uint" ++ toString s, Ty.uint s ("uint" ++ toString s)))
  ++ [("address", Ty.address), ("bool", Ty.bool), ("string", Ty.string),
      ("bytes", Ty.bytes)]

/-- `PRIMITIVE_TYPES.get(name)` (keys are distinct, so list lookup agrees
with the `HashMap`). -/
def primitiveLookup (name : String) : Option Ty := primitiveTypes.lookup name

/-- `is_primitive_type`. -/
def isPrimitiveType (name : String) : Bool := (primitiveLookup name).isSome

/-- First character class of the `is_ident` regex `[a-zA-Z$_]`. -/
def identStart (c : Char) : Bool :=
  (97 ≤ c.toNat && c.toNat ≤ 122) || (65 ≤ c.toNat && c.toNat ≤ 90) ||
    c = '$' || c = '_'

/-- Continuation character class of the `is_ident` regex `[a-zA-Z0-9$_]`. -/
def identCont (c : Char) : Bool := identStart c || (48 ≤ c.toNat && c.toNat ≤ 57)

/-- `is_ident`: the regex `^[a-zA-Z$_][a-zA-Z0-9$_]+$` — note the `+`, which
requires at least two characters in total. -/
def isIdent (s : String) : Bool :=
  match s.data with
  | [] => false
  | c :: rest => identStart c && !rest.isEmpty && rest.all identCont

/-- Index of the last occurrence of `c` in `l`, if any (`str::rfind`). -/
def findLastIdx (l : List Char) (c : Char) : Option Nat :=
  match l.reverse.findIdx? (· = c) with
  | none => none
  | some i => some (l.length - 1 - i)

/-- `Type::try_from_name`.  Byte indices of the Rust code are char indices
here; the delimiters `[`/`]` are ASCII, so the slices agree exactly. -/
def Ty.tryFromName (name : String) : Option Ty :=
  match primitiveLookup name with
  | some t => some t
  | none =>
    if isIdent name then some (Ty.struct name)
    else match name.data.findIdx? (· = '[') with
      | none => none
      | some b =>
        match findLastIdx (name.data.drop b) ']' with
        | none => none
        | some e =>
          let ident := String.mk (name.data.take b)
          let size := String.mk ((name.data.drop (b + 1)).take (e - 1))
          if size.data.isEmpty then some (Ty.array ident name)
          else match parseUsize size with
            | some n => some (Ty.fixedArray n ident name)
            | none => none

/-- `Type::is_valid`.  For `Uint`/`Int` only the six widths
`8, 16, 32, 64, 128, 256` are accepted. -/
def Ty.isValid : Ty → Bool
  | .address | .bool | .bytes | .string => true
  | .uint s _ | .int s _ =>
      s = 8 || s = 16 || s = 32 || s = 64 || s = 128 || s = 256
  | .fixedBytes s _ => 0 < s && s ≤ 32
  | .fixedArray _ _ _ | .array _ _ | .struct _ => true

/-- `Type::name`. -/
def Ty.name : Ty → String
  | .address => "address"
  | .bool => "bool"
  | .bytes => "bytes"
  | .string => "string"
  | .uint _ n => n
  | .int _ n => n
  | .fixedBytes _ n => n
  | .fixedArray _ n _ => n
  | .array n _ => n
  | .struct n => n

/-- `Type::reference_name`. -/
def Ty.referenceName : Ty → String
  | .fixedArray _ _ n => n
  | .array _ n => n
  | t => t.name

/-- `Type::is_array`. -/
def Ty.isArray : Ty → Bool
  | .fixedArray _ _ _ | .array _ _ => true
  | _ => false

/-- `Type::is_struct`. -/
def Ty.isStruct : Ty → Bool
  | .struct _ => true
  | _ => false

/-- `Type::is_struct_ref`. -/
def Ty.isStructRef (t : Ty) : Bool :=
  t.isStruct || (t.isArray && !isPrimitiveType t.name)

/-- `Type::remove_reference`. -/
def Ty.removeReference (t : Ty) : Option Ty :=
  if t.isArray then Ty.tryFromName t.name else some t

/-! ## Struct schema (`eip-712/src/types.rs`, continued)

The `Cell<Option<H256>>` memoization of `StructType::type_hash` is a pure,
single-write cache; it is dropped here and the type hash is recomputed on
demand, which is observably identical. -/

/-- `MemberType` of `eip-712/src/lib.rs` (a `{name, type}` JSON record). -/
structure MemberType where
  name : String
  type_ : String
deriving DecidableEq, Repr

/-- `StructMemberType`. -/
structure StructMemberType where
  name : String
  type_ : Ty
deriving DecidableEq, Repr

/-- `StructMemberType::try_from(&MemberType)`. -/
def StructMemberType.tryFrom (m : MemberType) : Option StructMemberType :=
  (Ty.tryFromName m.type_).map fun t => { name := m.name, type_ := t }

/-- `StructType` (without the `type_hash` memo cell). -/
structure StructType where
  type_ : Ty
  members : List StructMemberType
deriving DecidableEq, Repr

/-- Member loop of `StructType::try_from_named_struct`: reject duplicate
member names, then parse each member's type. -/
def structMembersLoop : List MemberType → List String → Option (List StructMemberType)
  | [], _ => some []
  | m :: ms, visited =>
    if visited.contains m.name then none
    else match StructMemberType.tryFrom m with
      | none => none
      | some mt =>
        match structMembersLoop ms (m.name :: visited) with
        | none => none
        | some rest => some (mt :: rest)

/-- `StructType::try_from_named_struct`. -/
def StructType.tryFromNamedStruct (name : String) (members : List MemberType) :
    Option StructType :=
  match Ty.tryFromName name with
  | none => none
  | some type_ =>
    match structMembersLoop members [] with
    | none => none
    | some memberTypes => some { type_ := type_, members := memberTypes }

/-- The `Hash for Type` impl: feed the reference name. -/
def Ty.hashBytes (t : Ty) : List Nat := strBytes t.referenceName

/-- The `Hash for StructMemberType` impl: `type ‖ " " ‖ name`. -/
def StructMemberType.hashBytes (m : StructMemberType) : List Nat :=
  m.type_.hashBytes ++ strBytes " " ++ strBytes m.name

/-- The `Hash for StructType` impl:
`name ‖ "(" ‖ member₁ ‖ "," ‖ ... ‖ memberₙ ‖ ")"`. -/
def StructType.hashBytes (st : StructType) : List Nat :=
  strBytes st.type_.name ++ strBytes "(" ++
    (match st.members with
     | [] => []
     | m :: ms =>
       m.hashBytes ++ ms.flatMap (fun m2 => strBytes "," ++ m2.hashBytes)) ++
  strBytes ")"

/-! ## JSON values

`serde_json::Value`, with two simplifications that are commented where they
matter: numbers are modelled as integers (`serde_json` numbers are
`u64 | i64 | f64`; non-integral numbers fail every `as_u64`/`as_i64` probe
the hasher performs, exactly as integers outside `[-2^63, 2^64)` do), and
objects are association lists with the lookup/key-iteration interface the
hasher uses. -/

inductive Json where
  | null : Json
  | bool (b : Bool) : Json
  | num (n : Int) : Json
  | str (s : String) : Json
  | arr (elems : List Json) : Json
  | obj (fields : List (String × Json)) : Json

/-- `Value::is_null`. -/
def Json.isNull : Json → Bool
  | .null => true
  | _ => false

/-- `Number::as_u64` on an integral number. -/
def Json.asU64 (n : Int) : Option Nat :=
  if 0 ≤ n ∧ n < 2 ^ 64 then some n.toNat else none

/-- `Number::as_i64` on an integral number. -/
def Json.asI64 (n : Int) : Option Int :=
  if -2 ^ 63 ≤ n ∧ n < 2 ^ 63 then some n else none

/-! ## The hasher (`eip-712/src/hasher.rs`) -/

/-- `TypedData` of `eip-712/src/lib.rs`.  The `types` HashMap becomes an
association list (its iteration order only affects which error wins when
construction fails, never a successful result). -/
structure TypedData where
  types : List (String × List MemberType)
  primaryType : String
  domain : Json
  message : Json

/-- `Hasher`. -/
structure Hasher where
  structTypes : List (String × StructType)
  domainSeparator : List Nat
deriving DecidableEq

/-- One step of the work-list loop of `Hasher::get_referenced_structs`.
The visited `HashSet` becomes a list in insertion order (the caller sorts,
so the set's iteration order is immaterial); the stack's top is the list
head, so `Vec::extend` prepends the reversed list of new references. -/
def grsLoop (types : List (String × StructType)) :
    Nat → List String → List String → Option (List String)
  | 0, _, _ => none
  | _ + 1, visited, [] => some visited
  | fuel + 1, visited, depName :: stack =>
    if visited.contains depName then grsLoop types fuel visited stack
    else match types.lookup depName with
      | none => none
      | some st =>
        let visited2 := depName :: visited
        let refs := (((st.members.map (·.type_)).filter
          (fun m => m.isStructRef && !visited2.contains m.name)).map (·.name))
        grsLoop types fuel visited2 (refs.reverse ++ stack)

/-- Fuel that strictly exceeds the number of loop iterations: the loop pops
one name per iteration, and at most `1 + Σ members` names are ever pushed. -/
def grsFuel (types : List (String × StructType)) : Nat :=
  2 + types.length + (types.map (fun p => p.2.members.length)).sum

/-- Lexicographic order on char lists by code point.  This is exactly the
`Ord for &str` order used by `deps[1..].sort()` in Rust: `&str` compares
UTF-8 bytes lexicographically, and UTF-8 is order-preserving on code
points. -/
def charLeB : List Char → List Char → Bool
  | [], _ => true
  | _ :: _, [] => false
  | a :: as, b :: bs =>
    if a.toNat < b.toNat then true
    else if b.toNat < a.toNat then false
    else charLeB as bs

/-- Lexicographic string order (see `charLeB`). -/
def strLeB (a b : String) : Bool := charLeB a.data b.data

/-- Insert into a `strLeB`-sorted list of strings. -/
def insertStr (a : String) : List String → List String
  | [] => [a]
  | b :: bs => if strLeB a b then a :: b :: bs else b :: insertStr a bs

/-- Sort strings lexicographically (`deps[1..].sort()`; the sorted names
are distinct, so any sort producing a `strLeB`-sorted permutation yields
the same list as Rust's sort). -/
def sortStrings (l : List String) : List String := l.foldr insertStr []

/-- The name list of `Hasher::get_referenced_structs`: the primary type
first, then every other transitively referenced struct name sorted. -/
def Hasher.referencedStructNames (h : Hasher) (primaryType : String) :
    Option (List String) :=
  match grsLoop h.structTypes (grsFuel h.structTypes) [] [primaryType] with
  | none => none
  | some visited =>
    some (primaryType :: sortStrings (visited.filter (· ≠ primaryType)))

/-- `Hasher::get_referenced_structs`. -/
def Hasher.getReferencedStructs (h : Hasher) (primaryType : String) :
    Option (List StructType) :=
  match h.referencedStructNames primaryType with
  | none => none
  | some names => names.mapM fun n => h.structTypes.lookup n

/-- `Hasher::type_hash` (with `type_hash_struct` inlined): Keccak-256 of the
concatenated `encodeType` blocks of all referenced structs. -/
def Hasher.typeHash (h : Hasher) (st : StructType) : Option (List Nat) :=
  match h.getReferencedStructs st.type_.name with
  | none => none
  | some structs => some (keccak256 (structs.flatMap StructType.hashBytes))

/-- The integer obtained from a JSON value in the `Type::Int` arm of
`hash_value`: `as_u64`, then `as_i64`, then the optionally `-`- and
`0x`-prefixed hexadecimal string. -/
def intValue? : Json → Option Int
  | .num number =>
    match Json.asU64 number with
    | some val => some (val : Int)
    | none =>
      match Json.asI64 number with
      | some val => some val
      | none => none
  | .str value =>
    let p := match value.data with
      | '-' :: rest => (true, String.mk rest)
      | _ => (false, value)
    match parseBigUintHex (strip0x p.2) with
    | none => none
    | some m => some (if p.1 then -(m : Int) else (m : Int))
  | _ => none

/-- The integer obtained from a JSON value in the `Type::Uint` arm of
`hash_value`: `as_u64`, or the optionally `0x`-prefixed hex string. -/
def uintValue? : Json → Option Nat
  | .num number => Json.asU64 number
  | .str value => parseBigUintHex (strip0x value)
  | _ => none

/-- `Hasher::hash_array`, abstracted over the recursive `hash_value` call:
strip the array reference, then hash the concatenation of the element
slots. -/
def hashArrayBody (rec : Ty → Json → Option (List Nat)) (t : Ty) (v : Json) :
    Option (List Nat) :=
  match t.removeReference with
  | none => none
  | some refTy =>
    match v with
    | .arr elems =>
      match elems.mapM (fun e => rec refTy e) with
      | none => none
      | some slots => some (keccak256 slots.flatten)
    | _ => none

/-- The slot contributed by one declared member in `Hasher::hash_struct`:
present non-null values are encoded, absent or `null` values become the
all-zero slot. -/
def memberSlot (rec : Ty → Json → Option (List Nat))
    (fields : List (String × Json)) (m : StructMemberType) : Option (List Nat) :=
  match fields.lookup m.name with
  | some val => if !val.isNull then rec m.type_ val else some zeros32
  | none => some zeros32

/-- The member loop of `Hasher::hash_struct`: reject duplicate member
names, concatenate the member slots, and return the visited name set. -/
def encodeMembers (rec : Ty → Json → Option (List Nat))
    (fields : List (String × Json)) :
    List StructMemberType → List String → Option (List Nat × List String)
  | [], visited => some ([], visited)
  | m :: ms, visited =>
    if visited.contains m.name then none
    else match memberSlot rec fields m with
      | none => none
      | some slot =>
        match encodeMembers rec fields ms (m.name :: visited) with
        | none => none
        | some (rest, vis) => some (slot ++ rest, vis)

/-- `Hasher::hash_struct`, abstracted over the recursive `hash_value` call:
`keccak256(typeHash ‖ encodeData)` for an object value, failing when the
object holds a key no declared member consumed. -/
def hashStructBody (h : Hasher) (rec : Ty → Json → Option (List Nat))
    (name : String) (v : Json) : Option (List Nat) :=
  match h.structTypes.lookup name with
  | none => none
  | some st =>
    match v with
    | .obj fields =>
      match h.typeHash st with
      | none => none
      | some th =>
        match encodeMembers rec fields st.members [] with
        | none => none
        | some (data, visited) =>
          if fields.all (fun kv => visited.contains kv.1) then
            some (keccak256 (th ++ data))
          else none
    | _ => none

/-- `Hasher::hash_value`, by recursion on fuel (the Rust recursion descends
into strict JSON subvalues, so any fuel above twice the value's size is
enough; the guarded `Int`/`Uint`/`FixedBytes` arms fall through to the
final error arm when `is_valid` fails, as in the source `match`). -/
def hashValueF (h : Hasher) : Nat → Ty → Json → Option (List Nat)
  | 0, _, _ => none
  | fuel + 1, t, v =>
    match t, v with
    | .address, .str hex => (u256FromStrHex hex).map (fun enc => pad32 (minBytesBE enc))
    | .address, _ => none
    | .bool, .bool yes => some (if yes then List.replicate 31 0 ++ [1] else zeros32)
    | .bool, _ => none
    | .bytes, .str hex => (hexDecode (strip0x hex)).map keccak256
    | .bytes, _ => none
    | .string, .str val => some (keccak256 (strBytes val))
    | .string, _ => none
    | .int size nm, v =>
      if (Ty.int size nm).isValid then
        match intValue? v with
        | none => none
        | some i =>
          let bytes := bigIntToSignedBytesBE i
          if !bytes.isEmpty && bytes.length ≤ size / 8 then
            some (List.replicate (32 - bytes.length) (if i < 0 then 0xff else 0) ++ bytes)
          else none
      else none
    | .uint size nm, v =>
      if (Ty.uint size nm).isValid then
        match uintValue? v with
        | none => none
        | some n =>
          let bytes := bigUintToBytesBE n
          if !bytes.isEmpty && bytes.length ≤ size / 8 then
            some (List.replicate (32 - bytes.length) 0 ++ bytes)
          else none
      else none
    | .fixedBytes size nm, v =>
      if (Ty.fixedBytes size nm).isValid then
        match v with
        | .str hex =>
          let hex2 := strip0x hex
          if hex2.data.length ≠ size * 2 then none
          else match hexDecode hex2 with
            | none => none
            | some buf => some (buf ++ List.replicate (32 - size) 0)
        | _ => none
      else none
    | .fixedArray size nm fullNm, v =>
      (match v with
       | .arr values =>
         if values.length ≠ size then none
         else hashArrayBody (hashValueF h fuel) (Ty.fixedArray size nm fullNm) v
       | _ => hashArrayBody (hashValueF h fuel) (Ty.fixedArray size nm fullNm) v)
    | .array nm fullNm, v => hashArrayBody (hashValueF h fuel) (Ty.array nm fullNm) v
    | .struct nm, v => hashStructBody h (hashValueF h fuel) nm v

/-- `Hasher::hash_struct` at recursion-depth bound `fuel`.  The Rust
recursion is structural on the (finite) JSON value, so it always
terminates; here `fuel` bounds the depth, statements below are either
fuel-independent or quantified over `fuel`, and concrete evaluations use a
fuel visibly larger than the value's depth. -/
def hashStructF (h : Hasher) (fuel : Nat) (name : String) (v : Json) :
    Option (List Nat) :=
  hashStructBody h (hashValueF h fuel) name v

/-- `Hasher::hash`:
`keccak256(0x19 ‖ 0x01 ‖ domainSeparator ‖ hashStruct(primaryType, message))`. -/
def Hasher.hashF (h : Hasher) (fuel : Nat) (td : TypedData) : Option (List Nat) :=
  match hashStructF h fuel td.primaryType td.message with
  | none => none
  | some hs => some (keccak256 ([0x19, 0x01] ++ h.domainSeparator ++ hs))

/-- The struct-definition loop of `Hasher::try_from`: reject names that
redefine a built-in type or an already defined struct. -/
def hasherBuildLoop :
    List (String × List MemberType) → List (String × StructType) →
      Option (List (String × StructType))
  | [], acc => some acc
  | (name, members) :: rest, acc =>
    if (acc.lookup name).isSome || isPrimitiveType name then none
    else match StructType.tryFromNamedStruct name members with
      | none => none
      | some d => hasherBuildLoop rest (acc ++ [(name, d)])

/-- `Hasher::try_from(&TypedData)`: require an `EIP712Domain` entry, define
all struct types, then set the domain separator to
`hash_struct("EIP712Domain", domain)` (the separator starts out as the
all-zero `H256::default()`, which `hash_struct` never reads). -/
def Hasher.tryFromF (fuel : Nat) (td : TypedData) : Option Hasher :=
  if (td.types.lookup "EIP712Domain").isNone then none
  else match hasherBuildLoop td.types [] with
    | none => none
    | some sts =>
      let h : Hasher := { structTypes := sts, domainSeparator := zeros32 }
      match hashStructF h fuel "EIP712Domain" td.domain with
      | none => none
      | some ds => some { h with domainSeparator := ds }

/-- `TypedData::hash` of `eip-712/src/lib.rs`. -/
def TypedData.hashF (fuel : Nat) (td : TypedData) : Option (List Nat) :=
  match Hasher.tryFromF fuel td with
  | none => none
  | some h => h.hashF fuel td

/-! ## The canonical "Mail" example (`EMAIL_JSON` in `hasher.rs`) -/

def mailTypes : List (String × List MemberType) :=
  [("EIP712Domain",
    [⟨"name", "string"⟩, ⟨"version", "string"⟩, ⟨"chainId", "uint256"⟩,
     ⟨"verifyingContract", "address"⟩]),
   ("Person", [⟨"name", "string"⟩, ⟨"wallet", "address"⟩]),
   ("Mail", [⟨"from", "Person"⟩, ⟨"to", "Person"⟩, ⟨"contents", "string"⟩])]

def mailTypedData : TypedData :=
  { types := mailTypes
    primaryType := "Mail"
    domain := Json.obj
      [("name", Json.str "Ether Mail"), ("version", Json.str "1"),
       ("chainId", Json.num 1),
       ("verifyingContract", Json.str "0xCcCCccccCCCCcCCCCCCcCcCccCcCCCcCcccccccC")]
    message := Json.obj
      [("from", Json.obj
          [("name", Json.str "Cow"),
           ("wallet", Json.str "0xCD2a3d9F938E13CD947Ec05AbC7FE734Df8DD826")]),
       ("to", Json.obj
          [("name", Json.str "Bob"),
           ("wallet", Json.str "0xbBbBBBBbbBBBbbbBbbBbbbbBBbBbbbbBbBbbBBbB")]),
       ("contents", Json.str "Hello, Bob!")] }

/-- The domain separator asserted by `hasher_try_from_typed_data_ok`. -/
def mailDomainSeparator : List Nat :=
  [0xf2, 0xce, 0xe3, 0x75, 0xfa, 0x42, 0xb4, 0x21, 0x43, 0x80, 0x40, 0x25,
   0xfc, 0x44, 0x9d, 0xea, 0xfd, 0x50, 0xcc, 0x03, 0x1c, 0xa2, 0x57, 0xe0,
   0xb1, 0x94, 0xa6, 0x50, 0xa9, 0x12, 0x09, 0x0f]

/-- The final digest asserted by `hasher_hash`. -/
def mailDigest : List Nat :=
  [0xbe, 0x60, 0x9a, 0xee, 0x34, 0x3f, 0xb3, 0xc4, 0xb2, 0x8e, 0x1d, 0xf9,
   0xe6, 0x32, 0xfc, 0xa6, 0x4f, 0xcf, 0xae, 0xde, 0x20, 0xf0, 0x2e, 0x86,
   0x24, 0x4e, 0xfd, 0xdf, 0x30, 0x95, 0x7b, 0xd2]

/-! ## The `rlp` crate's `RlpStream`

A faithful state machine for `rlp::RlpStream` (the `rlp 0.5` crate used via
`web3`): `begin_list(n)` reserves a one-byte placeholder and pushes an
unfinished-list record; every appended item bumps the innermost counter;
when a list reaches its declared length its header is written over the
placeholder (inserting extra length bytes for payloads over 55 bytes) and
the completion propagates to the enclosing list.  `as_raw()` returns the
buffer as-is even when lists are left unfinished.  Appending more items
than declared makes the crate panic, recorded here in `panicked` (no code
path below ever reaches it). -/

structure RlpStream where
  buffer : List Nat
  /-- Innermost-first `(position, current, max)` records of unfinished lists. -/
  unfinished : List (Nat × Nat × Nat)
  panicked : Bool

def RlpStream.new : RlpStream := ⟨[], [], false⟩

/-- `BasicEncoder::insert_list_payload`: write the list header for a
payload of length `len` that starts at `pos` (the placeholder byte sits at
`pos - 1`). -/
def insertListPayload (buf : List Nat) (pos len : Nat) : List Nat :=
  if len ≤ 55 then buf.take (pos - 1) ++ [0xc0 + len] ++ buf.drop pos
  else
    let lenBytes := minBytesBE len
    buf.take (pos - 1) ++ [0xf7 + lenBytes.length] ++ lenBytes ++ buf.drop pos

/-- `RlpStream::note_appended(1)`, recursing over the unfinished stack. -/
def noteAppendedAux : List (Nat × Nat × Nat) → List Nat → Bool → RlpStream
  | [], buf, p => ⟨buf, [], p⟩
  | (pos, cur, max) :: rest, buf, p =>
    if cur + 1 > max then ⟨buf, (pos, cur + 1, max) :: rest, true⟩
    else if cur + 1 = max then
      noteAppendedAux rest (insertListPayload buf pos (buf.length - pos)) p
    else ⟨buf, (pos, cur + 1, max) :: rest, p⟩

def RlpStream.noteAppended (s : RlpStream) : RlpStream :=
  noteAppendedAux s.unfinished s.buffer s.panicked

/-- Append one already-encoded item. -/
def RlpStream.appendBytes (s : RlpStream) (bs : List Nat) : RlpStream :=
  RlpStream.noteAppended ⟨s.buffer ++ bs, s.unfinished, s.panicked⟩

/-- `RlpStream::begin_list`. -/
def RlpStream.beginList (s : RlpStream) (len : Nat) : RlpStream :=
  if len = 0 then RlpStream.noteAppended ⟨s.buffer ++ [0xc0], s.unfinished, s.panicked⟩
  else ⟨s.buffer ++ [0x00], (s.buffer.length + 1, 0, len) :: s.unfinished, s.panicked⟩

/-- RLP encoding of a byte string (`Encodable` for `Vec<u8>`/`&str`/hashes:
single bytes below `0x80` stand for themselves). -/
def rlpStrEnc (bs : List Nat) : List Nat :=
  if bs.length = 1 && bs.headD 0 < 0x80 then bs
  else if bs.length ≤ 55 then (0x80 + bs.length) :: bs
  else
    let l := minBytesBE bs.length
    (0xb7 + l.length) :: (l ++ bs)

/-- RLP encoding of an unsigned integer (`Encodable` for `u64`/`U256`):
the minimal big-endian bytes as a string, `0x80` for zero. -/
def rlpUintEnc (n : Nat) : List Nat := rlpStrEnc (minBytesBE n)

/-- RLP header of a list with the given already-encoded payload. -/
def rlpListHeader (payload : List Nat) : List Nat :=
  if payload.length ≤ 55 then [0xc0 + payload.length]
  else
    let l := minBytesBE payload.length
    (0xf7 + l.length) :: l

/-- RLP encoding of a list from its already-encoded items. -/
def rlpListEnc (items : List (List Nat)) : List Nat :=
  rlpListHeader items.flatten ++ items.flatten

/-- Bytes of an appended `Option<U256>` field: `Encodable for Option`
encodes `None` as the empty list (one `0xc0` byte) and `Some` as the value
(modelled from the `rlp` crate; concrete inputs below keep these fields
`Some`, so no conclusion depends on the `None` byte). -/
def rlpOptUintEnc : Option Nat → List Nat
  | none => [0xc0]
  | some n => rlpUintEnc n

/-- Bytes of the appended `Option<Vec<u8>>` data field. -/
def rlpOptBytesEnc : Option (List Nat) → List Nat
  | none => [0xc0]
  | some bs => rlpStrEnc bs

/-- Bytes of the appended `to` field: a 20-byte address, or `""`. -/
def rlpToEnc : Option Nat → List Nat
  | none => rlpStrEnc []
  | some toAddr => rlpStrEnc (pad20 (minBytesBE toAddr))

/-! ## Transaction pre-images
(`blockchain-transaction-types/src/models/ethereum_transaction.rs`) -/

/-- `web3::types::AccessListItem` (address and storage-key values as
numbers below `2^160` / `2^256`). -/
structure AccessListItem where
  address : Nat
  storageKeys : List Nat

/-- The fields of `web3::types::TransactionRequest` that `message_hash`
reads (`from`, `condition` and the gas oracle fields it never touches are
omitted). -/
structure TransactionRequest where
  nonce : Option Nat
  gasPrice : Option Nat
  gas : Option Nat
  «to» : Option Nat
  value : Option Nat
  data : Option (List Nat)
  transactionType : Option Nat
  accessList : Option (List AccessListItem)
  maxFeePerGas : Option Nat
  maxPriorityFeePerGas : Option Nat

/-- Append one `[address, [storageKeys...]]` access-list pair (the loop
body shared by the EIP-2930 and EIP-1559 encoders). -/
def rlpAppendAccessItem (s : RlpStream) (item : AccessListItem) : RlpStream :=
  let s := s.beginList 2
  let s := s.appendBytes (rlpStrEnc (pad20 (minBytesBE item.address)))
  let s := s.beginList item.storageKeys.length
  item.storageKeys.foldl (fun s k => s.appendBytes (rlpStrEnc (pad32 (minBytesBE k)))) s

/-- `rlp_append_unsigned_legacy`:
`[nonce, gasprice, startgas, to, value, data, chainid, 0, 0]`. -/
def rlpAppendUnsignedLegacy (request : TransactionRequest) (s : RlpStream)
    (chainId : Nat) : RlpStream :=
  let s := s.beginList 9
  let s := s.appendBytes (rlpOptUintEnc request.nonce)
  let s := s.appendBytes (rlpOptUintEnc request.gasPrice)
  let s := s.appendBytes (rlpOptUintEnc request.gas)
  let s := s.appendBytes (rlpToEnc request.«to»)
  let s := s.appendBytes (rlpOptUintEnc request.value)
  let s := s.appendBytes (rlpOptBytesEnc request.data)
  let s := s.appendBytes (rlpUintEnc chainId)
  let s := s.appendBytes (rlpUintEnc 0)
  s.appendBytes (rlpUintEnc 0)

/-- `rlp_append_unsigned_eip_2930`.  Note that the source appends the
access-list pairs directly into the outer list — it never opens the
enclosing access-list list — and appends nothing at all when
`access_list` is `None`. -/
def rlpAppendUnsignedEip2930 (request : TransactionRequest) (s : RlpStream)
    (chainId : Nat) : RlpStream :=
  let s := s.beginList 8
  let s := s.appendBytes (rlpUintEnc chainId)
  let s := s.appendBytes (rlpOptUintEnc request.nonce)
  let s := s.appendBytes (rlpOptUintEnc request.gasPrice)
  let s := s.appendBytes (rlpOptUintEnc request.gas)
  let s := s.appendBytes (rlpToEnc request.«to»)
  let s := s.appendBytes (rlpOptUintEnc request.value)
  let s := s.appendBytes (rlpOptBytesEnc request.data)
  match request.accessList with
  | some accessList => accessList.foldl rlpAppendAccessItem s
  | none => s

/-- `rlp_append_unsigned_eip_1559`, with the same access-list behaviour as
the EIP-2930 encoder. -/
def rlpAppendUnsignedEip1559 (request : TransactionRequest) (s : RlpStream)
    (chainId : Nat) : RlpStream :=
  let s := s.beginList 9
  let s := s.appendBytes (rlpUintEnc chainId)
  let s := s.appendBytes (rlpOptUintEnc request.nonce)
  let s := s.appendBytes (rlpOptUintEnc request.maxPriorityFeePerGas)
  let s := s.appendBytes (rlpOptUintEnc request.maxFeePerGas)
  let s := s.appendBytes (rlpOptUintEnc request.gas)
  let s := s.appendBytes (rlpToEnc request.«to»)
  let s := s.appendBytes (rlpOptUintEnc request.value)
  let s := s.appendBytes (rlpOptBytesEnc request.data)
  match request.accessList with
  | some accessList => accessList.foldl rlpAppendAccessItem s
  | none => s

/-- Keccak-256 of `rlp.as_raw()`; a panic during encoding aborts the Rust
process, modelled as failure (never reached below). -/
def rlpFinish (s : RlpStream) : Option (List Nat) :=
  if s.panicked then none else some (keccak256 s.buffer)

/-- `SignableTransactionRequest::message_hash for Web3TransactionRequest`.
`Error::InvalidData` becomes `none`. -/
def messageHash (request : TransactionRequest) (chainId : Nat) :
    Option (List Nat) :=
  match request.transactionType with
  | some 2 =>
    if request.gasPrice.isSome then none
    else rlpFinish (rlpAppendUnsignedEip1559 request RlpStream.new chainId)
  | some 1 =>
    if request.maxFeePerGas.isSome || request.maxPriorityFeePerGas.isSome then none
    else rlpFinish (rlpAppendUnsignedEip2930 request RlpStream.new chainId)
  | some transactionType =>
    if transactionType ≤ 0x7f || transactionType = 0xff then none
    else if request.accessList.isSome || request.maxFeePerGas.isSome ||
        request.maxPriorityFeePerGas.isSome then none
    else rlpFinish (rlpAppendUnsignedLegacy request RlpStream.new chainId)
  | none =>
    if request.accessList.isSome || request.maxFeePerGas.isSome ||
        request.maxPriorityFeePerGas.isSome then none
    else rlpFinish (rlpAppendUnsignedLegacy request RlpStream.new chainId)

/-! ## Reference encodings of the three documented pre-image shapes

These follow the doc comments of the three `rlp_append_unsigned_*`
functions (and §4.8 of the specification): a single RLP list whose last
element, for the typed shapes, is the access list encoded as a list of
`[address, [storageKeys...]]` pairs. -/

/-- The access list as its own RLP list of pairs (empty list when absent). -/
def rlpAccessListEnc (al : Option (List AccessListItem)) : List Nat :=
  rlpListEnc ((al.getD []).map fun item =>
    rlpListEnc [rlpStrEnc (pad20 (minBytesBE item.address)),
                rlpListEnc (item.storageKeys.map fun k =>
                  rlpStrEnc (pad32 (minBytesBE k)))])

/-- Item encodings of the legacy list
`[nonce, gasprice, startgas, to, value, data, chainid, 0, 0]`. -/
def legacySpecItems (request : TransactionRequest) (chainId : Nat) :
    List (List Nat) :=
  [rlpOptUintEnc request.nonce, rlpOptUintEnc request.gasPrice,
   rlpOptUintEnc request.gas, rlpToEnc request.«to»,
   rlpOptUintEnc request.value, rlpOptBytesEnc request.data,
   rlpUintEnc chainId, rlpUintEnc 0, rlpUintEnc 0]

/-- Item encodings of the EIP-2930 list
`[chainId, nonce, gasPrice, gasLimit, to, value, data, accessList]`. -/
def eip2930SpecItems (request : TransactionRequest) (chainId : Nat) :
    List (List Nat) :=
  [rlpUintEnc chainId, rlpOptUintEnc request.nonce,
   rlpOptUintEnc request.gasPrice, rlpOptUintEnc request.gas,
   rlpToEnc request.«to», rlpOptUintEnc request.value,
   rlpOptBytesEnc request.data, rlpAccessListEnc request.accessList]

/-- Item encodings of the EIP-1559 list
`[chain_id, nonce, max_priority_fee_per_gas, max_fee_per_gas, gas_limit,
destination, amount, data, access_list]`. -/
def eip1559SpecItems (request : TransactionRequest) (chainId : Nat) :
    List (List Nat) :=
  [rlpUintEnc chainId, rlpOptUintEnc request.nonce,
   rlpOptUintEnc request.maxPriorityFeePerGas,
   rlpOptUintEnc request.maxFeePerGas, rlpOptUintEnc request.gas,
   rlpToEnc request.«to», rlpOptUintEnc request.value,
   rlpOptBytesEnc request.data, rlpAccessListEnc request.accessList]

/-! ## Concrete transaction requests (field values from the repository's
`test_2930_signature` / `test_1559_signature` tests, with every appended
optional field present) -/

def feeMarketRequest : TransactionRequest :=
  { nonce := some 0x333
    gasPrice := none
    gas := some 0x8AE0
    «to» := some 0x0d4a03B23Ae95409A4ecfE9396A9D39ca4f0fed1
    value := some 0x2933BC9
    data := some []
    transactionType := some 2
    accessList := none
    maxFeePerGas := some 0x1D97C
    maxPriorityFeePerGas := some 0x1284D }

def accessListRequest : TransactionRequest :=
  { nonce := some 0x333
    gasPrice := some 0x09184e72a000
    gas := some 0x8AE0
    «to» := some 0x0d4a03B23Ae95409A4ecfE9396A9D39ca4f0fed1
    value := some 0x2933BC9
    data := some []
    transactionType := some 1
    accessList := none
    maxFeePerGas := none
    maxPriorityFeePerGas := none }

def legacyRequest : TransactionRequest :=
  { nonce := some 0x333
    gasPrice := some 0x09184e72a000
    gas := some 0x8AE0
    «to» := some 0x0d4a03B23Ae95409A4ecfE9396A9D39ca4f0fed1
    value := some 0x2933BC9
    data := some []
    transactionType := none
    accessList := none
    maxFeePerGas := none
    maxPriorityFeePerGas := none }

def accessListRequestOnePair : TransactionRequest :=
  { accessListRequest with accessList := some [⟨0xbeef, [7]⟩] }

/-- A hasher with no struct types (only primitive-type encoding is
exercised through it). -/
def emptyHasher : Hasher := { structTypes := [], domainSeparator := zeros32 }

/-- C5: for a fee-market request, `message_hash` fails when `gasPrice` is
present; but when `gasPrice` is absent the digest it returns is NOT the
Keccak-256 of the RLP encoding of the 9-element list
`[chainId, nonce, maxPriorityFeePerGas, maxFeePerGas, gas, to, value,
data, accessList]` stated by the claim and by the encoder's own doc
comment: the access-list element is never appended, the outer list is
never finalized, and the digest is taken over a buffer that still starts
with the unpatched `0x00` placeholder byte. -/
theorem c5_fee_market_divergence :
    messageHash { feeMarketRequest with gasPrice := some 5 } 0 = none ∧
    messageHash feeMarketRequest 0 =
      some (keccak256 (0x00 :: ((eip1559SpecItems feeMarketRequest 0).take 8).flatten)) ∧
    messageHash feeMarketRequest 0 ≠
      some (keccak256 (rlpListEnc (eip1559SpecItems feeMarketRequest 0))) := by
  decide

/-- C7: for an access-list request without an access list, the signing
pre-image is not the RLP encoding of the documented 8-element list (the
buffer keeps its `0x00` placeholder and has no header and no access-list
element); and with a one-pair access list the pair itself — not the
enclosing access list — becomes the eighth element. -/
theorem c7_access_list_divergence :
    messageHash accessListRequest 0 =
      some (keccak256 (0x00 :: ((eip2930SpecItems accessListRequest 0).take 7).flatten)) ∧
    messageHash accessListRequest 0 ≠
      some (keccak256 (rlpListEnc (eip2930SpecItems accessListRequest 0))) ∧
    (rlpAppendUnsignedEip2930 accessListRequestOnePair RlpStream.new 0).buffer =
      rlpListEnc ((eip2930SpecItems accessListRequestOnePair 0).take 7 ++
        [rlpListEnc [rlpStrEnc (pad20 (minBytesBE 0xbeef)),
                     rlpListEnc [rlpStrEnc (pad32 (minBytesBE 7))]]]) ∧
    (rlpAppendUnsignedEip2930 accessListRequestOnePair RlpStream.new 0).buffer ≠
      rlpListEnc (eip2930SpecItems accessListRequestOnePair 0) := by
  decide

/-- C9: `uint24`/`int24` are registered primitive type names and parse to
`Uint(24)`/`Int(24)`, yet `is_valid` rejects width 24, so `hash_value`
rejects every value of these types as an invalid type — while the same
value at width 8 encodes fine. -/
theorem c9_uint24_divergence :
    Ty.tryFromName "uint24" = some (Ty.uint 24 "uint24") ∧
    Ty.tryFromName "int24" = some (Ty.int 24 "int24") ∧
    (Ty.uint 24 "uint24").isValid = false ∧
    (Ty.int 24 "int24").isValid = false ∧
    hashValueF emptyHasher 5 (Ty.uint 24 "uint24") (Json.num 0) = none ∧
    hashValueF emptyHasher 5 (Ty.int 24 "int24") (Json.num 0) = none ∧
    hashValueF emptyHasher 5 (Ty.uint 8 "uint8") (Json.num 0) = some zeros32 := by
  decide

/-- C6 counterexample: a legacy-shaped request with an explicit
`transactionType = 0` does not succeed — `message_hash` rejects every
explicit type at or below `0x7f` — while the identical request without
`transactionType` succeeds with the legacy digest. -/
theorem c6_counterexample :
    messageHash { legacyRequest with transactionType := some 0 } 0 = none ∧
    messageHash legacyRequest 0 =
      some (keccak256 (rlpListEnc (legacySpecItems legacyRequest 0))) := by
  decide

/-! ## Claim C1: the top-level digest -/

/-- The hasher `Hasher::try_from` builds from the Mail document: its three
struct types in declaration order, and the EIP-712 domain separator. -/
def mailHasher : Hasher :=
  { structTypes :=
      [("EIP712Domain",
        ⟨Ty.struct "EIP712Domain",
         [⟨"name", Ty.string⟩, ⟨"version", Ty.string⟩,
          ⟨"chainId", Ty.uint 256 "uint256"⟩,
          ⟨"verifyingContract", Ty.address⟩]⟩),
       ("Person",
        ⟨Ty.struct "Person", [⟨"name", Ty.string⟩, ⟨"wallet", Ty.address⟩]⟩),
       ("Mail",
        ⟨Ty.struct "Mail",
         [⟨"from", Ty.struct "Person"⟩, ⟨"to", Ty.struct "Person"⟩,
          ⟨"contents", Ty.string⟩]⟩)]
    domainSeparator := mailDomainSeparator }

/-- `hashStruct(Mail, message)` for the Mail document (the value asserted
by the repository's `hasher_hash_struct_ok` test). -/
def mailMessageHashStruct : List Nat :=
  [0xc5, 0x2c, 0x0e, 0xe5, 0xd8, 0x42, 0x64, 0x47, 0x18, 0x06, 0x29, 0x0a,
   0x3f, 0x2c, 0x4c, 0xec, 0xfc, 0x54, 0x90, 0x62, 0x6b, 0xf9, 0x12, 0xd0,
   0x1f, 0x24, 0x0d, 0x7a, 0x27, 0x4b, 0x37, 0x1e]

set_option maxHeartbeats 40000000 in
/-- C1: the digest of a typed-data document is
`keccak256(0x1901 ‖ domainSeparator ‖ hashStruct(primaryType, message))`
where the domain separator was computed at construction as
`hashStruct(EIP712Domain, domain)` over a hasher whose separator field
still holds the `H256::default()` zeroes; and on the canonical Ether-Mail
document the domain separator and final digest are the two known
vectors. -/
theorem c1_hash_digest :
    (∀ (td : TypedData) (h : Hasher) (fuel : Nat),
        Hasher.tryFromF fuel td = some h →
        hashStructF ⟨h.structTypes, zeros32⟩ fuel "EIP712Domain" td.domain =
          some h.domainSeparator) ∧
    (∀ (h : Hasher) (fuel : Nat) (td : TypedData) (hs : List Nat),
        hashStructF h fuel td.primaryType td.message = some hs →
        h.hashF fuel td =
          some (keccak256 ([0x19, 0x01] ++ h.domainSeparator ++ hs))) ∧
    Hasher.tryFromF 64 mailTypedData = some mailHasher ∧
    mailHasher.domainSeparator = mailDomainSeparator ∧
    mailHasher.hashF 64 mailTypedData = some mailDigest := by
  refine ⟨?_, ?_, by decide, by decide, by decide⟩
  · intro td h fuel htf
    unfold Hasher.tryFromF at htf
    split at htf
    · exact absurd htf (by simp)
    · cases hb : hasherBuildLoop td.types [] with
      | none => rw [hb] at htf; exact absurd htf (by simp)
      | some sts =>
        rw [hb] at htf
        dsimp only [] at htf
        cases hds : hashStructF ⟨sts, zeros32⟩ fuel "EIP712Domain" td.domain with
        | none => rw [hds] at htf; exact absurd htf (by simp)
        | some ds =>
          rw [hds] at htf
          simp only [Option.some.injEq] at htf
          subst htf
          exact hds
  · intro h fuel td hs hhs
    unfold Hasher.hashF
    rw [hhs]

end BitskiCommon

namespace BitskiCommon

/-! ## Claim C2: the dependency resolver's ordering -/

/-- The struct-reference member names of a struct (the names the resolver
pushes, before the visited-set filter). -/
def refNames (st : StructType) : List String :=
  ((st.members.map (·.type_)).filter (·.isStructRef)).map (·.name)

/-- One resolver edge: `b` is a struct-reference member name of `a`. -/
def typesSucc (types : List (String × StructType)) (a b : String) : Prop :=
  ∃ st, types.lookup a = some st ∧ b ∈ refNames st

/-- `x` is transitively referenced from `p` (reflexively). -/
def structRefReachable (h : Hasher) (p x : String) : Prop :=
  Relation.ReflTransGen (typesSucc h.structTypes) p x

theorem grsLoop_sub (types : List (String × StructType)) :
    ∀ fuel visited stack out, grsLoop types fuel visited stack = some out →
      (∀ x ∈ visited, x ∈ out) ∧ (∀ s ∈ stack, s ∈ out) := by
  intro fuel
  induction fuel with
  | zero => intro visited stack out h; simp [grsLoop] at h
  | succ fuel ih =>
    intro visited stack out h
    cases stack with
    | nil =>
      simp only [grsLoop, Option.some.injEq] at h
      subst h
      exact ⟨fun x hx => hx, by simp⟩
    | cons dep stack =>
      simp only [grsLoop] at h
      by_cases hv : visited.contains dep
      · rw [if_pos hv] at h
        obtain ⟨h1, h2⟩ := ih _ _ _ h
        exact ⟨h1, by
          intro s hs
          rcases List.mem_cons.1 hs with rfl | hs
          · exact h1 _ (List.mem_of_elem_eq_true hv)
          · exact h2 _ hs⟩
      · rw [if_neg hv] at h
        cases hl : types.lookup dep with
        | none => rw [hl] at h; simp at h
        | some st =>
          rw [hl] at h
          obtain ⟨h1, h2⟩ := ih _ _ _ h
          refine ⟨fun x hx => h1 _ (List.mem_cons_of_mem _ hx), ?_⟩
          intro s hs
          rcases List.mem_cons.1 hs with rfl | hs
          · exact h1 _ (List.mem_cons_self _ _)
          · exact h2 _ (List.mem_append_right _ hs)

theorem grsLoop_nodup (types : List (String × StructType)) :
    ∀ fuel visited stack out, grsLoop types fuel visited stack = some out →
      visited.Nodup → out.Nodup := by
  intro fuel
  induction fuel with
  | zero => intro visited stack out h; simp [grsLoop] at h
  | succ fuel ih =>
    intro visited stack out h hnd
    cases stack with
    | nil =>
      simp only [grsLoop, Option.some.injEq] at h
      subst h; exact hnd
    | cons dep stack =>
      simp only [grsLoop] at h
      by_cases hv : visited.contains dep
      · rw [if_pos hv] at h; exact ih _ _ _ h hnd
      · rw [if_neg hv] at h
        cases hl : types.lookup dep with
        | none => rw [hl] at h; simp at h
        | some st =>
          rw [hl] at h
          exact ih _ _ _ h (List.nodup_cons.2 ⟨fun hc => hv (List.elem_eq_true_of_mem hc), hnd⟩)

theorem grsLoop_reach (types : List (String × StructType)) :
    ∀ fuel visited stack out, grsLoop types fuel visited stack = some out →
      ∀ x ∈ out, x ∈ visited ∨
        ∃ s ∈ stack, Relation.ReflTransGen (typesSucc types) s x := by
  intro fuel
  induction fuel with
  | zero => intro visited stack out h; simp [grsLoop] at h
  | succ fuel ih =>
    intro visited stack out h x hx
    cases stack with
    | nil =>
      simp only [grsLoop, Option.some.injEq] at h
      subst h; exact Or.inl hx
    | cons dep stack =>
      simp only [grsLoop] at h
      by_cases hv : visited.contains dep
      · rw [if_pos hv] at h
        rcases ih _ _ _ h x hx with hvx | ⟨s, hs, hr⟩
        · exact Or.inl hvx
        · exact Or.inr ⟨s, List.mem_cons_of_mem _ hs, hr⟩
      · rw [if_neg hv] at h
        cases hl : types.lookup dep with
        | none => rw [hl] at h; simp at h
        | some st =>
          rw [hl] at h
          rcases ih _ _ _ h x hx with hvx | ⟨s, hs, hr⟩
          · rcases List.mem_cons.1 hvx with rfl | hvx
            · exact Or.inr ⟨x, List.mem_cons_self _ _, Relation.ReflTransGen.refl⟩
            · exact Or.inl hvx
          · rcases List.mem_append.1 hs with h1 | h1
            · rw [List.mem_reverse] at h1
              have hrn : s ∈ refNames st := by
                simp only [refNames, List.mem_map, List.mem_filter,
                  Bool.and_eq_true] at h1 ⊢
                obtain ⟨t, ⟨ht, hfilt1, hfilt2⟩, rfl⟩ := h1
                exact ⟨t, ⟨ht, hfilt1⟩, rfl⟩
              exact Or.inr ⟨dep, List.mem_cons_self _ _,
                Relation.ReflTransGen.head ⟨st, hl, hrn⟩ hr⟩
            · exact Or.inr ⟨s, List.mem_cons_of_mem _ h1, hr⟩

end BitskiCommon

namespace BitskiCommon

theorem grsLoop_closed (types : List (String × StructType)) :
    ∀ fuel visited stack out, grsLoop types fuel visited stack = some out →
      (∀ v ∈ visited, ∀ b, typesSucc types v b → b ∈ visited ∨ b ∈ stack) →
      ∀ v ∈ out, ∀ b, typesSucc types v b → b ∈ out := by
  intro fuel
  induction fuel with
  | zero => intro visited stack out h; simp [grsLoop] at h
  | succ fuel ih =>
    intro visited stack out h hinv
    cases stack with
    | nil =>
      simp only [grsLoop, Option.some.injEq] at h
      subst h
      intro v hv b hb
      rcases hinv v hv b hb with h1 | h1
      · exact h1
      · simp at h1
    | cons dep stack =>
      simp only [grsLoop] at h
      by_cases hv : visited.contains dep
      · rw [if_pos hv] at h
        refine ih _ _ _ h ?_
        intro v hvv b hb
        rcases hinv v hvv b hb with h1 | h1
        · exact Or.inl h1
        · rcases List.mem_cons.1 h1 with rfl | h1
          · exact Or.inl (List.mem_of_elem_eq_true hv)
          · exact Or.inr h1
      · rw [if_neg hv] at h
        cases hl : types.lookup dep with
        | none => rw [hl] at h; simp at h
        | some st =>
          rw [hl] at h
          refine ih _ _ _ h ?_
          intro v hvv b hb
          rcases List.mem_cons.1 hvv with heq | hvv
          · -- v = dep: successors are in refNames st
            rw [heq] at hb
            obtain ⟨st', hl', hb'⟩ := hb
            rw [hl] at hl'
            injection hl' with hst
            subst hst
            by_cases hbv : b ∈ dep :: visited
            · exact Or.inl hbv
            · refine Or.inr (List.mem_append_left _ ?_)
              rw [List.mem_reverse]
              simp only [refNames, List.mem_map, List.mem_filter] at hb'
              obtain ⟨t, ⟨ht, hsr⟩, rfl⟩ := hb'
              simp only [List.mem_map, List.mem_filter, Bool.and_eq_true]
              refine ⟨t, ⟨ht, hsr, ?_⟩, rfl⟩
              simp only [Bool.not_eq_true']
              exact Bool.eq_false_iff.2 fun hc =>
                hbv (List.mem_of_elem_eq_true hc)
          · rcases hinv v hvv b hb with h1 | h1
            · exact Or.inl (List.mem_cons_of_mem _ h1)
            · rcases List.mem_cons.1 h1 with rfl | h1
              · exact Or.inl (List.mem_cons_self _ _)
              · exact Or.inr (List.mem_append_right _ h1)

/-- `charLeB` is total. -/
theorem charLeB_total : ∀ a b, charLeB a b = true ∨ charLeB b a = true := by
  intro a
  induction a with
  | nil => intro b; left; cases b <;> rfl
  | cons c cs ih =>
    intro b
    cases b with
    | nil => right; rfl
    | cons d ds =>
      simp only [charLeB]
      rcases Nat.lt_trichotomy c.toNat d.toNat with h | h | h
      · left; rw [if_pos h]
      · rw [if_neg (by omega), if_neg (by omega), if_neg (by omega), if_neg (by omega)]
        exact ih ds
      · right; rw [if_pos h]

theorem strLeB_total (a b : String) : strLeB a b = true ∨ strLeB b a = true :=
  charLeB_total a.data b.data

/-- `charLeB` is transitive. -/
theorem charLeB_trans : ∀ a b c, charLeB a b = true → charLeB b c = true →
    charLeB a c = true := by
  intro a
  induction a with
  | nil => intro b c _ _; cases c <;> rfl
  | cons x xs ih =>
    intro b c hab hbc
    cases b with
    | nil => simp [charLeB] at hab
    | cons y ys =>
      cases c with
      | nil => simp [charLeB] at hbc
      | cons z zs =>
        simp only [charLeB] at hab hbc ⊢
        by_cases hxy : x.toNat < y.toNat
        · by_cases hyz : y.toNat < z.toNat
          · rw [if_pos (by omega)]
          · rw [if_neg hyz] at hbc
            by_cases hzy : z.toNat < y.toNat
            · rw [if_pos hzy] at hbc; exact absurd hbc (by simp)
            · rw [if_pos (by omega)]
        · rw [if_neg hxy] at hab
          by_cases hyx : y.toNat < x.toNat
          · rw [if_pos hyx] at hab; exact absurd hab (by simp)
          · rw [if_neg hyx] at hab
            by_cases hyz : y.toNat < z.toNat
            · rw [if_pos (by omega)]
            · rw [if_neg hyz] at hbc
              by_cases hzy : z.toNat < y.toNat
              · rw [if_pos hzy] at hbc; exact absurd hbc (by simp)
              · rw [if_neg hzy] at hbc
                rw [if_neg (by omega), if_neg (by omega)]
                exact ih ys zs hab hbc

theorem strLeB_trans {a b c : String} (h1 : strLeB a b = true)
    (h2 : strLeB b c = true) : strLeB a c = true :=
  charLeB_trans a.data b.data c.data h1 h2

/-- `insertStr` inserts: the result is a permutation of `a :: l`. -/
theorem insertStr_perm (a : String) : ∀ l : List String, List.Perm (insertStr a l) (a :: l) := by
  intro l
  induction l with
  | nil => simp [insertStr]
  | cons b bs ih =>
    simp only [insertStr]
    by_cases h : strLeB a b
    · rw [if_pos h]
    · rw [if_neg h]
      exact (ih.cons b).trans (List.Perm.swap a b bs)

theorem sortStrings_perm : ∀ l : List String, List.Perm (sortStrings l) l := by
  intro l
  induction l with
  | nil => rfl
  | cons a l ih =>
    have : sortStrings (a :: l) = insertStr a (sortStrings l) := rfl
    rw [this]
    exact (insertStr_perm a (sortStrings l)).trans (ih.cons a)

/-- `insertStr` preserves sortedness. -/
theorem insertStr_sorted (a : String) :
    ∀ l : List String, l.Pairwise (fun x y => strLeB x y = true) →
      (insertStr a l).Pairwise (fun x y => strLeB x y = true) := by
  intro l
  induction l with
  | nil => intro _; simp [insertStr]
  | cons b bs ih =>
    intro hs
    rcases List.pairwise_cons.1 hs with ⟨hb, hbs⟩
    simp only [insertStr]
    by_cases h : strLeB a b
    · rw [if_pos h]
      refine List.pairwise_cons.2 ⟨?_, hs⟩
      intro y hy
      rcases List.mem_cons.1 hy with rfl | hy
      · exact h
      · -- strLeB a y from strLeB a b and strLeB b y: use transitivity
        exact strLeB_trans h (hb y hy)
    · rw [if_neg h]
      refine List.pairwise_cons.2 ⟨?_, ih hbs⟩
      intro y hy
      have := (insertStr_perm a bs).mem_iff.1 hy
      rcases List.mem_cons.1 this with rfl | hy'
      · rcases strLeB_total b y with h1 | h1
        · exact h1
        · exact absurd h1 (by simpa using h)
      · exact hb y hy'

theorem sortStrings_sorted :
    ∀ l : List String, (sortStrings l).Pairwise (fun x y => strLeB x y = true) := by
  intro l
  induction l with
  | nil => constructor
  | cons a l ih => exact insertStr_sorted a (sortStrings l) ih

end BitskiCommon

namespace BitskiCommon

/-- The schema of the repository's `hasher_type_hash_struct_faucet` test:
`Root(Type type,Value value,Leaf leaf)` with `Leaf()`, `Type(string name)`,
`Value(string value)` (domain separator irrelevant to the resolver). -/
def treeHasher : Hasher :=
  { structTypes :=
      [("Root", ⟨Ty.struct "Root",
        [⟨"type", Ty.struct "Type"⟩, ⟨"value", Ty.struct "Value"⟩,
         ⟨"leaf", Ty.struct "Leaf"⟩]⟩),
       ("Leaf", ⟨Ty.struct "Leaf", []⟩),
       ("Type", ⟨Ty.struct "Type", [⟨"name", Ty.string⟩]⟩),
       ("Value", ⟨Ty.struct "Value", [⟨"value", Ty.string⟩]⟩)]
    domainSeparator := zeros32 }

/-- A cyclic schema: `Root(Leaf leaf)`, `Leaf(Root root)`. -/
def cyclicHasher : Hasher :=
  { structTypes :=
      [("Root", ⟨Ty.struct "Root", [⟨"leaf", Ty.struct "Leaf"⟩]⟩),
       ("Leaf", ⟨Ty.struct "Leaf", [⟨"root", Ty.struct "Root"⟩]⟩)]
    domainSeparator := zeros32 }

/-- C2: on success the dependency resolver returns the primary type first,
followed by every other transitively referenced struct name exactly once,
sorted lexicographically; concretely, the `Root(Type type,Value value,Leaf
leaf)` schema resolves to `[Root, Leaf, Type, Value]`, and a cyclic schema
visits each struct exactly once. -/
theorem c2_referenced_structs_order :
    (∀ (h : Hasher) (p : String) (names : List String),
        h.referencedStructNames p = some names →
        names.head? = some p ∧
        names.tail.Pairwise (fun a b => strLeB a b = true) ∧
        names.Nodup ∧
        (∀ x, x ∈ names ↔ structRefReachable h p x)) ∧
    (treeHasher.getReferencedStructs "Root").map (fun l => l.map (·.type_.name)) =
      some ["Root", "Leaf", "Type", "Value"] ∧
    cyclicHasher.referencedStructNames "Root" = some ["Root", "Leaf"] := by
  refine ⟨?_, by decide, by decide⟩
  intro h p names hrn
  unfold Hasher.referencedStructNames at hrn
  cases hgl : grsLoop h.structTypes (grsFuel h.structTypes) [] [p] with
  | none => rw [hgl] at hrn; simp at hrn
  | some visited =>
    rw [hgl] at hrn
    simp only [Option.some.injEq] at hrn
    subst hrn
    have hsub := grsLoop_sub h.structTypes _ _ _ _ hgl
    have hp : p ∈ visited := hsub.2 p (List.mem_cons_self _ _)
    have hnd : visited.Nodup := grsLoop_nodup h.structTypes _ _ _ _ hgl List.nodup_nil
    have hreach : ∀ x ∈ visited,
        Relation.ReflTransGen (typesSucc h.structTypes) p x := by
      intro x hx
      rcases grsLoop_reach h.structTypes _ _ _ _ hgl x hx with h1 | ⟨s, hs, hr⟩
      · simp at h1
      · rcases List.mem_cons.1 hs with rfl | hs
        · exact hr
        · simp at hs
    have hclosed := grsLoop_closed h.structTypes _ _ _ _ hgl
      (by intro v hv; simp at hv)
    have hmem : ∀ x, Relation.ReflTransGen (typesSucc h.structTypes) p x →
        x ∈ visited := by
      intro x hx
      induction hx with
      | refl => exact hp
      | tail hab hbc ih => exact hclosed _ ih _ hbc
    have hperm := sortStrings_perm (visited.filter (· ≠ p))
    refine ⟨rfl, sortStrings_sorted _, ?_, ?_⟩
    · refine List.nodup_cons.2 ⟨?_, ?_⟩
      · intro hc
        have := hperm.mem_iff.1 hc
        simp at this
      · exact hperm.nodup_iff.2 (hnd.filter _)
    · intro x
      constructor
      · intro hx
        rcases List.mem_cons.1 hx with rfl | hx
        · exact Relation.ReflTransGen.refl
        · exact hreach x (List.mem_of_mem_filter (hperm.mem_iff.1 hx))
      · intro hx
        have hxv := hmem x hx
        by_cases hxp : x = p
        · subst hxp; exact List.mem_cons_self _ _
        · exact List.mem_cons_of_mem _ (hperm.mem_iff.2
            (List.mem_filter.2 ⟨hxv, by simpa using hxp⟩))

/-- Witness for C2 at the `Root(Type type,Value value,Leaf leaf)` schema. -/
theorem c2_referenced_structs_order_witness :
    (["Root", "Leaf", "Type", "Value"] : List String).head? = some "Root" ∧
    (["Root", "Leaf", "Type", "Value"] : List String).tail.Pairwise
      (fun a b => strLeB a b = true) ∧
    (["Root", "Leaf", "Type", "Value"] : List String).Nodup ∧
    (∀ x, x ∈ (["Root", "Leaf", "Type", "Value"] : List String) ↔
      structRefReachable treeHasher "Root" x) :=
  c2_referenced_structs_order.1 treeHasher "Root" _ (by decide)

end BitskiCommon

namespace BitskiCommon

/-- A minimal typed-data document for witnesses: two empty struct types. -/
def tinyTypedData : TypedData :=
  { types := [("EIP712Domain", []), ("Msg", [])]
    primaryType := "Msg"
    domain := Json.obj []
    message := Json.obj [] }

/-- The hasher built from `tinyTypedData`. -/
def tinyHasher : Hasher :=
  { structTypes :=
      [("EIP712Domain", ⟨Ty.struct "EIP712Domain", []⟩),
       ("Msg", ⟨Ty.struct "Msg", []⟩)]
    domainSeparator := keccak256 (keccak256 (strBytes "EIP712Domain()")) }

/-- `hashStruct(Msg, {})` for the tiny document. -/
def tinyMsgHashStruct : List Nat := keccak256 (keccak256 (strBytes "Msg()"))

set_option maxHeartbeats 4000000 in
/-- Witness for C1 at the tiny document. -/
theorem c1_hash_digest_witness :
    Hasher.tryFromF 8 tinyTypedData = some tinyHasher ∧
    hashStructF ⟨tinyHasher.structTypes, zeros32⟩ 8 "EIP712Domain"
      tinyTypedData.domain = some tinyHasher.domainSeparator ∧
    tinyHasher.hashF 8 tinyTypedData =
      some (keccak256 ([0x19, 0x01] ++ tinyHasher.domainSeparator ++
        tinyMsgHashStruct)) :=
  ⟨by decide, c1_hash_digest.1 tinyTypedData tinyHasher 8 (by decide),
   c1_hash_digest.2.1 tinyHasher 8 tinyTypedData tinyMsgHashStruct (by decide)⟩

/-! ## Claim C3: strictness of `hash_struct` -/

/-- The visited set returned by the member loop is the member names plus
the initial set. -/
theorem encodeMembers_visited (rec : Ty → Json → Option (List Nat))
    (fields : List (String × Json)) :
    ∀ (ms : List StructMemberType) (vis0 : List String) (data : List Nat)
      (vis : List String),
      encodeMembers rec fields ms vis0 = some (data, vis) →
      ∀ x, x ∈ vis ↔ x ∈ ms.map (·.name) ∨ x ∈ vis0 := by
  intro ms
  induction ms with
  | nil =>
    intro vis0 data vis h x
    simp only [encodeMembers, Option.some.injEq, Prod.mk.injEq] at h
    rw [← h.2]
    simp
  | cons m ms ih =>
    intro vis0 data vis h x
    simp only [encodeMembers] at h
    by_cases hc : vis0.contains m.name
    · rw [if_pos hc] at h; simp at h
    · rw [if_neg hc] at h
      cases hms : memberSlot rec fields m with
      | none => rw [hms] at h; simp at h
      | some slot =>
        rw [hms] at h
        cases hrest : encodeMembers rec fields ms (m.name :: vis0) with
        | none => rw [hrest] at h; simp at h
        | some p =>
          obtain ⟨rest, vis'⟩ := p
          rw [hrest] at h
          simp only [Option.some.injEq, Prod.mk.injEq] at h
          rw [← h.2]
          rw [ih _ _ _ hrest x]
          simp only [List.map_cons, List.mem_cons]
          tauto

/-- C3: a declared member whose key is missing, or present with value
`null`, contributes the all-zero 32-byte slot; a non-object value always
fails; and an object holding any key that is not a declared member name
always fails — extra keys are never silently ignored. -/
theorem c3_struct_strictness :
    (∀ (rec : Ty → Json → Option (List Nat)) (fields : List (String × Json))
        (m : StructMemberType),
        (fields.lookup m.name = none ∨ fields.lookup m.name = some Json.null) →
        memberSlot rec fields m = some (List.replicate 32 0)) ∧
    (∀ (h : Hasher) (fuel : Nat) (name : String) (v : Json),
        (∀ fields, v ≠ Json.obj fields) → hashStructF h fuel name v = none) ∧
    (∀ (h : Hasher) (fuel : Nat) (name : String) (st : StructType)
        (fields : List (String × Json)) (kv : String × Json),
        h.structTypes.lookup name = some st →
        kv ∈ fields →
        (∀ m ∈ st.members, m.name ≠ kv.1) →
        hashStructF h fuel name (Json.obj fields) = none) := by
  refine ⟨?_, ?_, ?_⟩
  · intro rec fields m hmv
    rcases hmv with h1 | h1 <;> simp [memberSlot, h1, Json.isNull, zeros32]
  · intro h fuel name v hv
    simp only [hashStructF, hashStructBody]
    cases hl : h.structTypes.lookup name with
    | none => rfl
    | some st =>
      cases v with
      | obj fields => exact absurd rfl (hv fields)
      | null => rfl
      | bool b => rfl
      | num n => rfl
      | str s => rfl
      | arr l => rfl
  · intro h fuel name st fields kv hl hkv hnm
    simp only [hashStructF, hashStructBody, hl]
    cases hth : h.typeHash st with
    | none => rfl
    | some th =>
      cases hem : encodeMembers (hashValueF h fuel) fields st.members [] with
      | none => rfl
      | some p =>
        obtain ⟨data, visited⟩ := p
        have hvis := encodeMembers_visited (hashValueF h fuel) fields
          st.members [] data visited hem
        have hfalse : (fields.all fun kv2 => visited.contains kv2.1) = false := by
          by_contra hc
          have hall : (fields.all fun kv2 => visited.contains kv2.1) = true := by
            revert hc
            cases fields.all fun kv2 => visited.contains kv2.1 <;> simp
          have hcont := List.all_eq_true.1 hall kv hkv
          have hmem := List.mem_of_elem_eq_true hcont
          rcases (hvis kv.1).1 hmem with hin | hin
          · obtain ⟨m, hm, hname⟩ := List.mem_map.1 hin
            exact hnm m hm hname
          · simp at hin
        simp only [hfalse]
        rfl

end BitskiCommon

namespace BitskiCommon

/-- Witness for C3: zero slots for a missing and a null member, failure
on a non-object value and on an extra key. -/
theorem c3_struct_strictness_witness :
    memberSlot (fun _ _ => none) [] ⟨"x", Ty.bool⟩ =
      some (List.replicate 32 0) ∧
    memberSlot (fun _ _ => none) [("x", Json.null)] ⟨"x", Ty.bool⟩ =
      some (List.replicate 32 0) ∧
    hashStructF tinyHasher 1 "Msg" (Json.num 0) = none ∧
    hashStructF tinyHasher 1 "Msg" (Json.obj [("extra", Json.null)]) =
      none :=
  ⟨c3_struct_strictness.1 (fun _ _ => none) [] ⟨"x", Ty.bool⟩ (Or.inl rfl),
   c3_struct_strictness.1 (fun _ _ => none) [("x", Json.null)] ⟨"x", Ty.bool⟩
     (Or.inr rfl),
   c3_struct_strictness.2.1 tinyHasher 1 "Msg" (Json.num 0)
     (fun _ hf => Json.noConfusion hf),
   c3_struct_strictness.2.2 tinyHasher 1 "Msg" ⟨Ty.struct "Msg", []⟩
     [("extra", Json.null)] ("extra", Json.null) rfl
     (List.mem_cons_self _ _) (fun m hm => absurd hm (List.not_mem_nil m))⟩

end BitskiCommon

namespace BitskiCommon

/-! ## Claim C4: integer width checking and sign extension -/

theorem natBytesBEAux_fuel : ∀ fuel fuel' n, n < fuel → n < fuel' →
    natBytesBEAux fuel n = natBytesBEAux fuel' n := by
  intro fuel
  induction fuel with
  | zero => intro fuel' n h; omega
  | succ fuel ih =>
    intro fuel' n h h'
    cases fuel' with
    | zero => omega
    | succ fuel' =>
      simp only [natBytesBEAux]
      by_cases hn : n = 0
      · rw [if_pos hn, if_pos hn]
      · rw [if_neg hn, if_neg hn]
        have hdiv : n / 256 < n := Nat.div_lt_self (by omega) (by omega)
        rw [ih fuel' (n / 256) (by omega) (by omega)]

/-- The defining recursion of `minBytesBE`. -/
theorem minBytesBE_eq (n : Nat) :
    minBytesBE n = if n = 0 then [] else minBytesBE (n / 256) ++ [n % 256] := by
  by_cases hn : n = 0
  · subst hn; rfl
  · rw [if_neg hn]
    show natBytesBEAux (n + 1) n = natBytesBEAux (n / 256 + 1) (n / 256) ++ [n % 256]
    have h1 : natBytesBEAux (n + 1) n = natBytesBEAux n (n / 256) ++ [n % 256] := by
      simp only [natBytesBEAux, if_neg hn]
    rw [h1]
    have hdiv : n / 256 < n := Nat.div_lt_self (by omega) (by omega)
    exact congrArg (· ++ [n % 256])
      (natBytesBEAux_fuel n (n / 256 + 1) (n / 256) (by omega) (by omega))

/-- Minimality: the byte length of `n` is at most `k` iff `n < 256^k`. -/
theorem minBytesBE_length_le (n : Nat) : ∀ k, (minBytesBE n).length ≤ k ↔ n < 256 ^ k := by
  induction n using Nat.strong_induction_on with
  | _ n ih =>
    intro k
    rw [minBytesBE_eq]
    by_cases hn : n = 0
    · subst hn
      rw [if_pos rfl]
      simp only [List.length_nil]
      exact ⟨fun _ => pow_pos (by omega : (0:ℕ) < 256) k, fun _ => Nat.zero_le k⟩
    · rw [if_neg hn]
      have hdiv : n / 256 < n := Nat.div_lt_self (by omega) (by omega)
      cases k with
      | zero =>
        simp only [Nat.pow_zero, List.length_append, List.length_cons, List.length_nil]
        omega
      | succ k =>
        rw [List.length_append]
        simp only [List.length_cons, List.length_nil]
        rw [Nat.pow_succ]
        constructor
        · intro hle
          have h1 : (minBytesBE (n / 256)).length ≤ k := by omega
          have h2 := (ih (n / 256) hdiv k).1 h1
          exact (Nat.div_lt_iff_lt_mul (by omega : 0 < 256)).1 h2
        · intro hlt
          have h2 : n / 256 < 256 ^ k :=
            (Nat.div_lt_iff_lt_mul (by omega : 0 < 256)).2 hlt
          have h1 := (ih (n / 256) hdiv k).2 h2
          omega

/-- Bytes of a nonzero value are nonempty. -/
theorem minBytesBE_ne_nil {n : Nat} (hn : n ≠ 0) : minBytesBE n ≠ [] := by
  intro hc
  have : (minBytesBE n).length ≤ 0 := by rw [hc]; simp
  have := (minBytesBE_length_le n 0).1 this
  simp [Nat.pow_zero] at this
  omega

/-- Value of a big-endian byte list. -/
def bytesToNatBE : List Nat → Nat
  | [] => 0
  | b :: bs => b * 256 ^ bs.length + bytesToNatBE bs

theorem bytesToNatBE_append_last (l : List Nat) (b : Nat) :
    bytesToNatBE (l ++ [b]) = bytesToNatBE l * 256 + b := by
  induction l with
  | nil => simp [bytesToNatBE]
  | cons a l ih =>
    have hlen : (l ++ [b]).length = l.length + 1 := by simp
    simp only [List.cons_append, bytesToNatBE, List.append_eq, ih, hlen, Nat.pow_succ]
    ring

theorem bytesToNatBE_minBytesBE (n : Nat) : bytesToNatBE (minBytesBE n) = n := by
  induction n using Nat.strong_induction_on with
  | _ n ih =>
    rw [minBytesBE_eq]
    by_cases hn : n = 0
    · subst hn; rfl
    · rw [if_neg hn]
      have hdiv : n / 256 < n := Nat.div_lt_self (by omega) (by omega)
      rw [bytesToNatBE_append_last, ih (n / 256) hdiv]
      omega

end BitskiCommon

namespace BitskiCommon

theorem pow256_eq (k : Nat) : 256 ^ k = 2 ^ (8 * k) := by
  rw [show (256 : Nat) = 2 ^ 8 by norm_num, ← pow_mul]

theorem minBytesBE_digits_lt (n : Nat) : ∀ b ∈ minBytesBE n, b < 256 := by
  induction n using Nat.strong_induction_on with
  | _ n ih =>
    intro b hb
    rw [minBytesBE_eq] at hb
    by_cases hn : n = 0
    · rw [if_pos hn] at hb; simp at hb
    · rw [if_neg hn] at hb
      rcases List.mem_append.1 hb with h1 | h1
      · exact ih (n / 256) (Nat.div_lt_self (by omega) (by omega)) b h1
      · simp at h1
        omega

theorem bytesToNatBE_lt (bs : List Nat) (hb : ∀ b ∈ bs, b < 256) :
    bytesToNatBE bs < 256 ^ bs.length := by
  induction bs with
  | nil => simp [bytesToNatBE]
  | cons b t ih =>
    simp only [bytesToNatBE, List.length_cons]
    have h1 : bytesToNatBE t < 256 ^ t.length :=
      ih fun x hx => hb x (List.mem_cons_of_mem _ hx)
    have h2 : b ≤ 255 := by
      have := hb b (List.mem_cons_self _ _); omega
    calc b * 256 ^ t.length + bytesToNatBE t
        ≤ 255 * 256 ^ t.length + bytesToNatBE t :=
          Nat.add_le_add_right (Nat.mul_le_mul_right _ h2) _
      _ < 255 * 256 ^ t.length + 256 ^ t.length := Nat.add_lt_add_left h1 _
      _ = 256 ^ (t.length + 1) := by rw [Nat.pow_succ]; ring

theorem bytesToNatBE_eq_zero_iff (bs : List Nat) :
    bytesToNatBE bs = 0 ↔ ∀ b ∈ bs, b = 0 := by
  induction bs with
  | nil => simp [bytesToNatBE]
  | cons b t ih =>
    simp only [bytesToNatBE, List.mem_cons, Nat.add_eq_zero, Nat.mul_eq_zero]
    constructor
    · rintro ⟨h1, h2⟩ x hx
      rcases hx with rfl | hx
      · rcases h1 with h1 | h1
        · exact h1
        · have hp : 0 < (256 : Nat) ^ t.length := Nat.pos_pow_of_pos _ (by omega)
          omega
      · exact ih.1 h2 x hx
    · intro hz
      exact ⟨Or.inl (hz b (Or.inl rfl)), ih.2 fun x hx => hz x (Or.inr hx)⟩

theorem headD_append_of_ne_nil {l l' : List Nat} (h : l ≠ []) (d : Nat) :
    (l ++ l').headD d = l.headD d := by
  cases l with
  | nil => exact absurd rfl h
  | cons a t => rfl

theorem minBytesBE_head_pos (n : Nat) (hn : n ≠ 0) : 1 ≤ (minBytesBE n).headD 0 := by
  induction n using Nat.strong_induction_on with
  | _ n ih =>
    rw [minBytesBE_eq, if_neg hn]
    by_cases h2 : n / 256 = 0
    · rw [h2]
      simp only [show minBytesBE 0 = [] from rfl, List.nil_append, List.headD_cons]
      omega
    · rw [headD_append_of_ne_nil (minBytesBE_ne_nil h2)]
      exact ih (n / 256) (Nat.div_lt_self (by omega) (by omega)) h2

/-- Structure of the minimal big-endian bytes of a nonzero value. -/
theorem minBytesBE_decomp (n : Nat) (hn : n ≠ 0) :
    ∃ h t, minBytesBE n = h :: t ∧ 1 ≤ h ∧ h < 256 ∧
      bytesToNatBE t < 256 ^ t.length ∧ n = h * 256 ^ t.length + bytesToNatBE t := by
  cases hbs : minBytesBE n with
  | nil => exact absurd hbs (minBytesBE_ne_nil hn)
  | cons h t =>
    refine ⟨h, t, rfl, ?_, ?_, ?_, ?_⟩
    · have := minBytesBE_head_pos n hn
      rw [hbs] at this
      exact this
    · have := minBytesBE_digits_lt n h (by rw [hbs]; exact List.mem_cons_self _ _)
      exact this
    · exact bytesToNatBE_lt t fun b hb =>
        minBytesBE_digits_lt n b (by rw [hbs]; exact List.mem_cons_of_mem _ hb)
    · have := bytesToNatBE_minBytesBE n
      rw [hbs] at this
      simpa [bytesToNatBE] using this.symm

end BitskiCommon

namespace BitskiCommon

theorem bigUintToBytesBE_ne_nil (n : Nat) : bigUintToBytesBE n ≠ [] := by
  unfold bigUintToBytesBE
  by_cases hn : n = 0
  · rw [if_pos hn]; simp
  · rw [if_neg hn]; exact minBytesBE_ne_nil hn

theorem bigUintToBytesBE_length_le (n k : Nat) (hk : 1 ≤ k) :
    (bigUintToBytesBE n).length ≤ k ↔ n < 256 ^ k := by
  unfold bigUintToBytesBE
  by_cases hn : n = 0
  · rw [if_pos hn]
    subst hn
    simp only [List.length_cons, List.length_nil]
    exact ⟨fun _ => Nat.pos_pow_of_pos _ (by omega), fun _ => hk⟩
  · rw [if_neg hn]
    exact minBytesBE_length_le n k

/-- Byte length of a non-negative signed representation. -/
theorem signedBytes_le_nonneg (i : Int) (hi : 0 ≤ i) (k : Nat) (hk : 1 ≤ k) :
    ((bigIntToSignedBytesBE i).length ≤ k ↔ i < 2 ^ (8 * k - 1)) := by
  have hcast : ((2 ^ (8 * k - 1) : Nat) : Int) = 2 ^ (8 * k - 1) := by push_cast; rfl
  rw [show (2 ^ (8 * k - 1) : Int) = ((2 ^ (8 * k - 1) : Nat) : Int) from hcast.symm]
  unfold bigIntToSignedBytesBE
  rw [if_pos hi]
  dsimp only []
  generalize hn : i.toNat = n
  have hni : i = (n : Int) := by omega
  rw [hni]
  by_cases hn0 : n = 0
  · subst hn0
    simp only [show bigUintToBytesBE 0 = [0] from rfl, List.headD_cons]
    rw [if_neg (by omega)]
    simp only [List.length_cons, List.length_nil]
    have : 0 < 2 ^ (8 * k - 1) := Nat.pos_pow_of_pos _ (by omega)
    constructor
    · intro _; exact_mod_cast this
    · intro _; exact hk
  · obtain ⟨h, t, heq, hh1, hh256, htv, hval⟩ := minBytesBE_decomp n hn0
    have hbu : bigUintToBytesBE n = h :: t := by
      unfold bigUintToBytesBE; rw [if_neg hn0]; exact heq
    rw [hbu]
    simp only [List.headD_cons]
    have hlen : (minBytesBE n).length = t.length + 1 := by rw [heq]; simp
    have hp : (0:Nat) < 256 ^ t.length := Nat.pos_pow_of_pos _ (by omega)
    have hcast2 : ∀ m : Nat, ((n : Int) < (m : Int)) ↔ n < m := by
      intro m; exact_mod_cast Iff.rfl
    rw [hcast2]
    by_cases hge : 128 ≤ h
    · rw [if_pos hge]
      simp only [List.length_cons]
      -- length = t.length + 2; n ≥ 128 * 256^t.length = 2^(8*(t.length+1)-1)
      have hlow : 2 ^ (8 * (t.length + 1) - 1) ≤ n := by
        rw [show 8 * (t.length + 1) - 1 = 8 * t.length + 7 by omega, pow_add,
          ← pow256_eq]
        calc 256 ^ t.length * 2 ^ 7 = 128 * 256 ^ t.length := by ring
          _ ≤ h * 256 ^ t.length := Nat.mul_le_mul_right _ hge
          _ ≤ n := by omega
      constructor
      · intro hle
        -- t.length + 2 ≤ k, so n < 256^(t.length+1) = 2^(8(t.length+1)) ≤ 2^(8k-8) ≤ 2^(8k-1)
        have hnlt : n < 256 ^ (t.length + 1) := by
          have := (minBytesBE_length_le n (t.length + 1)).1 (by omega)
          exact this
        calc n < 256 ^ (t.length + 1) := hnlt
          _ = 2 ^ (8 * (t.length + 1)) := pow256_eq _
          _ ≤ 2 ^ (8 * k - 1) := Nat.pow_le_pow_right (by omega) (by omega)
      · intro hlt
        -- 2^(8(t.length+1)-1) ≤ n < 2^(8k-1) forces t.length+1 < k
        have : 8 * (t.length + 1) - 1 < 8 * k - 1 := by
          by_contra hc
          have : 2 ^ (8 * k - 1) ≤ 2 ^ (8 * (t.length + 1) - 1) :=
            Nat.pow_le_pow_right (by omega) (by omega)
          omega
        omega
    · rw [if_neg hge]
      -- length = t.length + 1 = (minBytesBE n).length
      constructor
      · intro hle
        -- n < 128 * 256^t.length = 2^(8(t.length+1)-1) ≤ 2^(8k-1)
        have hup : n < 2 ^ (8 * (t.length + 1) - 1) := by
          rw [show 8 * (t.length + 1) - 1 = 8 * t.length + 7 by omega, pow_add,
            ← pow256_eq]
          have : h * 256 ^ t.length ≤ 127 * 256 ^ t.length :=
            Nat.mul_le_mul_right _ (by omega)
          calc n = h * 256 ^ t.length + bytesToNatBE t := hval
            _ < 128 * 256 ^ t.length := by omega
            _ = 256 ^ t.length * 2 ^ 7 := by ring
        calc n < 2 ^ (8 * (t.length + 1) - 1) := hup
          _ ≤ 2 ^ (8 * k - 1) := Nat.pow_le_pow_right (by omega) (by
            simp only [List.length_cons] at hle
            omega)
      · intro hlt
        have : n < 256 ^ k :=
          lt_of_lt_of_le hlt (by
            rw [pow256_eq]
            exact Nat.pow_le_pow_right (by omega) (by omega))
        have := (minBytesBE_length_le n k).2 this
        simp only [List.length_cons]
        omega

/-- Byte length of a negative signed representation. -/
theorem signedBytes_le_neg (i : Int) (hi : i < 0) (k : Nat) (hk : 1 ≤ k) :
    ((bigIntToSignedBytesBE i).length ≤ k ↔ -(2 ^ (8 * k - 1) : Int) ≤ i) := by
  have hcast : ((2 ^ (8 * k - 1) : Nat) : Int) = 2 ^ (8 * k - 1) := by push_cast; rfl
  rw [show (2 ^ (8 * k - 1) : Int) = ((2 ^ (8 * k - 1) : Nat) : Int) from hcast.symm]
  unfold bigIntToSignedBytesBE
  rw [if_neg (by omega)]
  dsimp only []
  generalize hm : (-i).toNat = m
  have hm1 : 1 ≤ m := by omega
  have hiff : (-(((2 ^ (8 * k - 1) : Nat) : Int)) ≤ i) ↔ m ≤ 2 ^ (8 * k - 1) := by
    omega
  rw [hiff]
  obtain ⟨h, t, heq, hh1, hh256, htv, hval⟩ := minBytesBE_decomp m (by omega)
  rw [heq]
  simp only [List.headD_cons, List.tail_cons, List.length_cons]
  have hp : (0:Nat) < 256 ^ t.length := Nat.pos_pow_of_pos _ (by omega)
  have hl1 : 8 * (t.length + 1) - 1 = 8 * t.length + 7 := by omega
  have h2l : (2:Nat) ^ (8 * t.length + 7) = 128 * 256 ^ t.length := by
    rw [pow_add, ← pow256_eq]; ring
  -- the chosen two's-complement width k0 and the key bound m ≤ 2^(8*k0-1)
  by_cases hcond : (decide (h < 128) || (decide (h = 128) && t.all (· = 0))) = true
  · rw [if_pos hcond]
    -- k0 = t.length + 1 and m ≤ 2^(8*(t.length+1)-1)
    have hbound : m ≤ 2 ^ (8 * (t.length + 1) - 1) := by
      rw [hl1, h2l]
      simp only [Bool.or_eq_true, Bool.and_eq_true, decide_eq_true_eq] at hcond
      rcases hcond with hlt | ⟨h128, hzero⟩
      · have : h * 256 ^ t.length ≤ 127 * 256 ^ t.length :=
          Nat.mul_le_mul_right _ (by omega)
        omega
      · have htz : bytesToNatBE t = 0 :=
          (bytesToNatBE_eq_zero_iff t).2 fun b hb => by
            have hd := List.all_eq_true.1 hzero b hb
            simpa using hd
        subst h128
        omega
    -- the resulting bytes have length exactly t.length + 1
    have hval2 : 2 ^ (8 * (t.length + 1) - 1) ≤ 2 ^ (8 * (t.length + 1)) - m ∧
        2 ^ (8 * (t.length + 1)) - m < 2 ^ (8 * (t.length + 1)) := by
      have hmono : (2:Nat) ^ (8 * (t.length + 1) - 1) ≤ 2 ^ (8 * (t.length + 1)) :=
        Nat.pow_le_pow_right (by omega) (by omega)
      have hdouble : (2:Nat) ^ (8 * (t.length + 1)) =
          2 ^ (8 * (t.length + 1) - 1) * 2 := by
        rw [show 8 * (t.length + 1) = (8 * (t.length + 1) - 1) + 1 from by omega,
          pow_succ, Nat.add_sub_cancel]
      omega
    have hlen : (minBytesBE (2 ^ (8 * (t.length + 1)) - m)).length = t.length + 1 := by
      have hub := (minBytesBE_length_le (2 ^ (8 * (t.length + 1)) - m) (t.length + 1)).2
        (by rw [pow256_eq]; omega)
      have hlb : ¬ ((minBytesBE (2 ^ (8 * (t.length + 1)) - m)).length ≤ t.length) := by
        rw [minBytesBE_length_le]
        rw [pow256_eq]
        have : (2:Nat) ^ (8 * t.length) ≤ 2 ^ (8 * (t.length + 1) - 1) :=
          Nat.pow_le_pow_right (by omega) (by omega)
        omega
      omega
    rw [hlen]
    constructor
    · intro hle
      calc m ≤ 2 ^ (8 * (t.length + 1) - 1) := hbound
        _ ≤ 2 ^ (8 * k - 1) := Nat.pow_le_pow_right (by omega) (by omega)
    · intro hle
      -- m ≥ 256^t.length, so m ≤ 2^(8k-1) < 256^k gives t.length + 1 ≤ k
      have : m < 256 ^ k := by
        have : (2:Nat) ^ (8 * k - 1) < 2 ^ (8 * k) := by
          exact Nat.pow_lt_pow_right (by omega) (by omega)
        rw [pow256_eq]
        omega
      have := (minBytesBE_length_le m k).2 this
      rw [heq] at this
      simp only [List.length_cons] at this
      exact this
  · rw [if_neg hcond]
    -- k0 = t.length + 2 and 2^(8*(t.length+1)-1) < m
    have hbig : 2 ^ (8 * (t.length + 1) - 1) < m := by
      rw [hl1, h2l]
      simp only [Bool.or_eq_true, Bool.and_eq_true, decide_eq_true_eq, not_or,
        not_and] at hcond
      obtain ⟨hge, hc2⟩ := hcond
      by_cases h128 : h = 128
      · have hnz : bytesToNatBE t ≠ 0 := by
          intro hz
          apply hc2 h128
          simp only [List.all_eq_true, decide_eq_true_eq]
          exact (bytesToNatBE_eq_zero_iff t).1 hz
        subst h128
        omega
      · have : 129 ≤ h := by omega
        have : 129 * 256 ^ t.length ≤ h * 256 ^ t.length :=
          Nat.mul_le_mul_right _ this
        omega
    have hbound : m ≤ 2 ^ (8 * (t.length + 2) - 1) := by
      have hmlt : m < 256 ^ (t.length + 1) := by
        have := (minBytesBE_length_le m (t.length + 1)).1 (by rw [heq]; simp)
        exact this
      exact le_of_lt (calc m < 256 ^ (t.length + 1) := hmlt
        _ = 2 ^ (8 * (t.length + 1)) := pow256_eq _
        _ ≤ 2 ^ (8 * (t.length + 2) - 1) := Nat.pow_le_pow_right (by omega) (by omega))
    have hval2 : 2 ^ (8 * (t.length + 2) - 1) ≤ 2 ^ (8 * (t.length + 2)) - m ∧
        2 ^ (8 * (t.length + 2)) - m < 2 ^ (8 * (t.length + 2)) := by
      have hdouble : (2:Nat) ^ (8 * (t.length + 2)) =
          2 ^ (8 * (t.length + 2) - 1) * 2 := by
        rw [show 8 * (t.length + 2) = (8 * (t.length + 2) - 1) + 1 from by omega,
          pow_succ, Nat.add_sub_cancel]
      omega
    have hlen : (minBytesBE (2 ^ (8 * (t.length + 2)) - m)).length = t.length + 2 := by
      have hub := (minBytesBE_length_le (2 ^ (8 * (t.length + 2)) - m) (t.length + 2)).2
        (by rw [pow256_eq]; omega)
      have hlb : ¬ ((minBytesBE (2 ^ (8 * (t.length + 2)) - m)).length ≤ t.length + 1) := by
        rw [minBytesBE_length_le]
        rw [pow256_eq]
        have : (2:Nat) ^ (8 * (t.length + 1)) ≤ 2 ^ (8 * (t.length + 2) - 1) :=
          Nat.pow_le_pow_right (by omega) (by omega)
        omega
      omega
    rw [hlen]
    constructor
    · intro hle
      calc m ≤ 2 ^ (8 * (t.length + 2) - 1) := hbound
        _ ≤ 2 ^ (8 * k - 1) := Nat.pow_le_pow_right (by omega) (by omega)
    · intro hle
      -- 2^(8(t.length+1)-1) < m ≤ 2^(8k-1) forces t.length + 1 < k
      have : 8 * (t.length + 1) - 1 < 8 * k - 1 := by
        by_contra hc
        have : (2:Nat) ^ (8 * k - 1) ≤ 2 ^ (8 * (t.length + 1) - 1) :=
          Nat.pow_le_pow_right (by omega) (by omega)
        omega
      omega

end BitskiCommon

namespace BitskiCommon

theorem bigIntToSignedBytesBE_ne_nil (i : Int) : bigIntToSignedBytesBE i ≠ [] := by
  unfold bigIntToSignedBytesBE
  by_cases hi : 0 ≤ i
  · rw [if_pos hi]
    dsimp only []
    by_cases hh : 128 ≤ (bigUintToBytesBE i.toNat).headD 0
    · rw [if_pos hh]; simp
    · rw [if_neg hh]; exact bigUintToBytesBE_ne_nil _
  · rw [if_neg hi]
    dsimp only []
    apply minBytesBE_ne_nil
    have hlt : (-i).toNat < 256 ^ (minBytesBE (-i).toNat).length :=
      (minBytesBE_length_le _ _).1 le_rfl
    set l := (minBytesBE (-i).toNat).length with hl
    have hk0 : l ≤ (if (decide ((minBytesBE (-i).toNat).headD 0 < 128) ||
        (decide ((minBytesBE (-i).toNat).headD 0 = 128) &&
          (minBytesBE (-i).toNat).tail.all (· = 0))) = true then l else l + 1) := by
      split <;> omega
    set k0 := (if (decide ((minBytesBE (-i).toNat).headD 0 < 128) ||
        (decide ((minBytesBE (-i).toNat).headD 0 = 128) &&
          (minBytesBE (-i).toNat).tail.all (· = 0))) = true then l else l + 1) with hk0def
    have : (256:Nat) ^ l ≤ 2 ^ (8 * k0) := by
      rw [pow256_eq]
      exact Nat.pow_le_pow_right (by omega) (by omega)
    omega

/-- C4 counterexample: `uint256` accepts every value below `2^256` per the
claim, and `2^64` needs only 9 bytes, yet the JSON number `2^64` is
rejected (the number fast path is 64-bit) while the equivalent hex string
is accepted. -/
theorem c4_counterexample :
    (Ty.uint 256 "uint256").isValid = true ∧
    (bigUintToBytesBE (2 ^ 64)).length ≤ 256 / 8 ∧
    hashValueF emptyHasher 5 (Ty.uint 256 "uint256") (Json.num (2 ^ 64)) = none ∧
    hashValueF emptyHasher 5 (Ty.uint 256 "uint256")
        (Json.str "0x10000000000000000") =
      some (List.replicate 23 0 ++ 1 :: List.replicate 8 0) := by decide

/-- C4 (amended): over the arbitrary-precision paths the width check is
exactly "the minimal (signed) representation fits in `w/8` bytes", the
accepted slot is the minimal representation filled to 32 bytes with `0xFF`
for negatives and `0x00` otherwise — but a JSON *number* is accepted only
within the 64-bit fast-path ranges `[0, 2^64)` / `[-2^63, 2^64)`. -/
theorem c4_int_width_encoding :
    (∀ (h : Hasher) (fuel w : Nat) (nm : String) (v : Json) (n : Nat),
        (Ty.uint w nm).isValid = true →
        uintValue? v = some n →
        (n < 256 ^ (w / 8) →
          hashValueF h (fuel + 1) (Ty.uint w nm) v =
            some (List.replicate (32 - (bigUintToBytesBE n).length) 0 ++
              bigUintToBytesBE n)) ∧
        (256 ^ (w / 8) ≤ n →
          hashValueF h (fuel + 1) (Ty.uint w nm) v = none)) ∧
    (∀ (h : Hasher) (fuel w : Nat) (nm : String) (v : Json) (i : Int),
        (Ty.int w nm).isValid = true →
        intValue? v = some i →
        ((-(2 ^ (8 * (w / 8) - 1) : Int) ≤ i ∧ i < 2 ^ (8 * (w / 8) - 1)) →
          hashValueF h (fuel + 1) (Ty.int w nm) v =
            some (List.replicate (32 - (bigIntToSignedBytesBE i).length)
              (if i < 0 then 0xff else 0) ++ bigIntToSignedBytesBE i)) ∧
        ((i < -(2 ^ (8 * (w / 8) - 1) : Int) ∨ (2 ^ (8 * (w / 8) - 1) : Int) ≤ i) →
          hashValueF h (fuel + 1) (Ty.int w nm) v = none)) ∧
    (∀ n : Int, uintValue? (Json.num n) =
        if 0 ≤ n ∧ n < 2 ^ 64 then some n.toNat else none) ∧
    (∀ n : Int, intValue? (Json.num n) =
        if -2 ^ 63 ≤ n ∧ n < 2 ^ 64 then some n else none) := by
  refine ⟨?_, ?_, fun n => rfl, ?_⟩
  · intro h fuel w nm v n hvalid hval
    have hk : 1 ≤ w / 8 := by
      simp only [Ty.isValid, Bool.or_eq_true, decide_eq_true_eq] at hvalid
      omega
    have hne : (bigUintToBytesBE n).isEmpty = false := by
      cases hb : bigUintToBytesBE n with
      | nil => exact absurd hb (bigUintToBytesBE_ne_nil n)
      | cons a t => rfl
    constructor
    · intro hlt
      have hlen : (bigUintToBytesBE n).length ≤ w / 8 :=
        (bigUintToBytesBE_length_le n (w / 8) hk).2 hlt
      simp only [hashValueF, hvalid, hval, if_true, hne]
      simp [hlen]
    · intro hge
      have hlen : ¬ (bigUintToBytesBE n).length ≤ w / 8 := by
        rw [bigUintToBytesBE_length_le n (w / 8) hk]
        omega
      simp only [hashValueF, hvalid, hval, if_true, hne]
      simp [hlen]
  · intro h fuel w nm v i hvalid hval
    have hk : 1 ≤ w / 8 := by
      simp only [Ty.isValid, Bool.or_eq_true, decide_eq_true_eq] at hvalid
      omega
    have hne : (bigIntToSignedBytesBE i).isEmpty = false := by
      cases hb : bigIntToSignedBytesBE i with
      | nil => exact absurd hb (bigIntToSignedBytesBE_ne_nil i)
      | cons a t => rfl
    have hbnd : (bigIntToSignedBytesBE i).length ≤ w / 8 ↔
        (-(2 ^ (8 * (w / 8) - 1) : Int) ≤ i ∧ i < 2 ^ (8 * (w / 8) - 1)) := by
      by_cases hi : 0 ≤ i
      · rw [signedBytes_le_nonneg i hi (w / 8) hk]
        have hpos : (0:Int) < 2 ^ (8 * (w / 8) - 1) := by positivity
        constructor
        · intro hlt; exact ⟨by omega, hlt⟩
        · intro hand; exact hand.2
      · rw [signedBytes_le_neg i (by omega) (w / 8) hk]
        have hpos : (0:Int) < 2 ^ (8 * (w / 8) - 1) := by positivity
        constructor
        · intro hle; exact ⟨hle, by omega⟩
        · intro hand; exact hand.1
    constructor
    · intro hin
      have hlen : (bigIntToSignedBytesBE i).length ≤ w / 8 := hbnd.2 hin
      simp only [hashValueF, hvalid, hval, if_true, hne]
      simp [hlen]
    · intro hout
      have hlen : ¬ (bigIntToSignedBytesBE i).length ≤ w / 8 := by
        rw [hbnd]
        have hpos : (0:Int) < 2 ^ (8 * (w / 8) - 1) := by positivity
        rcases hout with h1 | h1
        · intro hc; omega
        · intro hc; omega
      simp only [hashValueF, hvalid, hval, if_true, hne]
      simp [hlen]
  · intro n
    by_cases h1 : 0 ≤ n ∧ n < 2 ^ 64
    · have ha : Json.asU64 n = some n.toNat := by
        unfold Json.asU64; rw [if_pos h1]
      simp only [intValue?, ha]
      rw [if_pos (show -2 ^ 63 ≤ n ∧ n < 2 ^ 64 by omega)]
      simp only [Option.some.injEq]
      omega
    · have ha : Json.asU64 n = none := by
        unfold Json.asU64; rw [if_neg h1]
      by_cases h2 : -2 ^ 63 ≤ n ∧ n < 2 ^ 63
      · have hb : Json.asI64 n = some n := by
          unfold Json.asI64; rw [if_pos h2]
        simp only [intValue?, ha, hb]
        rw [if_pos (show -2 ^ 63 ≤ n ∧ n < 2 ^ 64 by omega)]
      · have hb : Json.asI64 n = none := by
          unfold Json.asI64; rw [if_neg h2]
        simp only [intValue?, ha, hb]
        rw [if_neg (show ¬(-2 ^ 63 ≤ n ∧ n < 2 ^ 64) by omega)]

/-- Witness for C4 at `uint8`/`int8` values. -/
theorem c4_int_width_encoding_witness :
    hashValueF emptyHasher 1 (Ty.uint 8 "uint8") (Json.str "ff") =
      some (List.replicate 31 0 ++ [0xff]) ∧
    hashValueF emptyHasher 1 (Ty.uint 8 "uint8") (Json.num 256) = none ∧
    hashValueF emptyHasher 1 (Ty.int 8 "int8") (Json.num (-1)) =
      some (List.replicate 31 0xff ++ [0xff]) ∧
    hashValueF emptyHasher 1 (Ty.int 8 "int8") (Json.num 128) = none ∧
    uintValue? (Json.num (2 ^ 64)) = none ∧
    intValue? (Json.num (2 ^ 64)) = none :=
  ⟨((c4_int_width_encoding.1 emptyHasher 0 8 "uint8" (Json.str "ff") 0xff
      (by decide) (by decide)).1 (by decide)).trans (by decide),
   (c4_int_width_encoding.1 emptyHasher 0 8 "uint8" (Json.num 256) 256
      (by decide) (by decide)).2 (by decide),
   ((c4_int_width_encoding.2.1 emptyHasher 0 8 "int8" (Json.num (-1)) (-1)
      (by decide) (by decide)).1 (by decide)).trans (by decide),
   (c4_int_width_encoding.2.1 emptyHasher 0 8 "int8" (Json.num 128) 128
      (by decide) (by decide)).2 (by decide),
   (c4_int_width_encoding.2.2.1 (2 ^ 64)).trans (by decide),
   (c4_int_width_encoding.2.2.2 (2 ^ 64)).trans (by decide)⟩

end BitskiCommon

namespace BitskiCommon

theorem insertListPayload_at_one (payload : List Nat) :
    insertListPayload (0x00 :: payload) 1 ((0x00 :: payload).length - 1) =
      rlpListHeader payload ++ payload := by
  have h : (0x00 :: payload).length - 1 = payload.length := by simp
  rw [h]
  unfold insertListPayload rlpListHeader
  by_cases hl : payload.length ≤ 55
  · rw [if_pos hl, if_pos hl]
    simp
  · rw [if_neg hl, if_neg hl]
    simp

theorem beginList9_run (b1 b2 b3 b4 b5 b6 b7 b8 b9 : List Nat) :
    (((((((((RlpStream.new.beginList 9).appendBytes b1).appendBytes
        b2).appendBytes b3).appendBytes b4).appendBytes b5).appendBytes
        b6).appendBytes b7).appendBytes b8).appendBytes b9 =
      ⟨rlpListEnc [b1, b2, b3, b4, b5, b6, b7, b8, b9], [], false⟩ := by
  have hflat : [b1, b2, b3, b4, b5, b6, b7, b8, b9].flatten =
      b1 ++ b2 ++ b3 ++ b4 ++ b5 ++ b6 ++ b7 ++ b8 ++ b9 := by
    simp [List.append_assoc]
  have h1 : (((((((((RlpStream.new.beginList 9).appendBytes b1).appendBytes
        b2).appendBytes b3).appendBytes b4).appendBytes b5).appendBytes
        b6).appendBytes b7).appendBytes b8).appendBytes b9 =
      RlpStream.mk (insertListPayload
        (0x00 :: (b1 ++ b2 ++ b3 ++ b4 ++ b5 ++ b6 ++ b7 ++ b8 ++ b9)) 1
        ((0x00 :: (b1 ++ b2 ++ b3 ++ b4 ++ b5 ++ b6 ++ b7 ++ b8 ++
          b9)).length - 1)) [] false := rfl
  rw [h1, insertListPayload_at_one, rlpListEnc, hflat]

/-- C6 (amended): an explicit `transactionType = 0` is rejected by the
`t <= 0x7f` guard of the catch-all match arm, while the identical request
with `transactionType` absent produces the legacy digest of the
documented 9-element list — so `0` and "absent" are *not* equivalent. -/
theorem c6_legacy_type_zero :
    (∀ (request : TransactionRequest) (chainId : Nat),
        request.transactionType = some 0 →
        messageHash request chainId = none) ∧
    (∀ (request : TransactionRequest) (chainId : Nat),
        request.transactionType = none →
        request.accessList = none →
        request.maxFeePerGas = none →
        request.maxPriorityFeePerGas = none →
        messageHash request chainId =
          some (keccak256 (rlpListEnc (legacySpecItems request chainId)))) := by
  constructor
  · intro request chainId htype
    unfold messageHash
    rw [htype]
    simp
  · intro request chainId htype hal hmf hmp
    unfold messageHash
    rw [htype]
    dsimp only []
    rw [hal, hmf, hmp]
    simp only [Option.isSome_none, Bool.or_self, Bool.false_or, if_false]
    unfold rlpAppendUnsignedLegacy
    dsimp only []
    rw [beginList9_run]
    rfl

/-- Witness for C6 at a concrete legacy request and chain id 1. -/
theorem c6_legacy_type_zero_witness :
    messageHash { legacyRequest with transactionType := some 0 } 1 = none ∧
    messageHash legacyRequest 1 =
      some (keccak256 (rlpListEnc (legacySpecItems legacyRequest 1))) :=
  ⟨c6_legacy_type_zero.1 { legacyRequest with transactionType := some 0 } 1 rfl,
   c6_legacy_type_zero.2 legacyRequest 1 rfl rfl rfl rfl⟩

end BitskiCommon

namespace BitskiCommon

theorem findIdx?_go_decomp (c : Char) :
    ∀ (l : List Char) (i b : Nat),
    List.findIdx? (· = c) l i = some b ↔
    ∃ pre rest, l = pre ++ c :: rest ∧ c ∉ pre ∧ i + pre.length = b := by
  intro l
  induction l with
  | nil =>
    intro i b
    rw [List.findIdx?_nil]
    constructor
    · intro h; cases h
    · rintro ⟨pre, rest, h, _, _⟩; exact absurd h (by simp)
  | cons a l ih =>
    intro i b
    rw [List.findIdx?_cons]
    by_cases hac : a = c
    · rw [if_pos (by simp [hac])]
      constructor
      · intro h
        injection h with hb
        exact ⟨[], l, by rw [hac]; rfl, by simp, by simpa using hb⟩
      · rintro ⟨pre, rest, h, hpre, hlen⟩
        cases pre with
        | nil =>
          simp only [List.length_nil, Nat.add_zero] at hlen
          rw [hlen]
        | cons x q =>
          rw [List.cons_append] at h
          injection h with hx _
          apply absurd _ hpre
          rw [show c = x from by rw [← hx, hac]]
          exact List.mem_cons_self _ _
    · rw [if_neg (by simp [hac])]
      constructor
      · intro h
        obtain ⟨pre, rest, hl, hpre, hlen⟩ := (ih (i + 1) b).1 h
        refine ⟨a :: pre, rest, by rw [hl, List.cons_append], ?_, ?_⟩
        · intro hc
          rcases List.mem_cons.1 hc with h1 | h1
          · exact hac h1.symm
          · exact hpre h1
        · simp only [List.length_cons]
          omega
      · rintro ⟨pre, rest, hl, hpre, hlen⟩
        cases pre with
        | nil =>
          rw [List.nil_append] at hl
          injection hl with hx _
          exact absurd hx hac
        | cons x q =>
          rw [List.cons_append] at hl
          injection hl with hx hrest
          refine (ih (i + 1) b).2 ⟨q, rest, hrest,
            fun hc => hpre (List.mem_cons_of_mem _ hc), ?_⟩
          simp only [List.length_cons] at hlen
          omega

theorem findIdx?_decomp (c : Char) (l : List Char) (b : Nat) :
    l.findIdx? (· = c) = some b ↔
    ∃ pre rest, l = pre ++ c :: rest ∧ c ∉ pre ∧ pre.length = b := by
  constructor
  · intro h
    obtain ⟨pre, rest, h1, h2, h3⟩ := (findIdx?_go_decomp c l 0 b).1 h
    exact ⟨pre, rest, h1, h2, by omega⟩
  · rintro ⟨pre, rest, h1, h2, h3⟩
    exact (findIdx?_go_decomp c l 0 b).2 ⟨pre, rest, h1, h2, by omega⟩

theorem findLastIdx_decomp (c : Char) (l : List Char) (e : Nat) :
    findLastIdx l c = some e ↔
    ∃ l1 l2, l = l1 ++ c :: l2 ∧ c ∉ l2 ∧ l1.length = e := by
  unfold findLastIdx
  constructor
  · intro h
    cases hfi : l.reverse.findIdx? (· = c) with
    | none => rw [hfi] at h; cases h
    | some i =>
      rw [hfi] at h
      injection h with he
      obtain ⟨pre, rest, hrev, hpre, hlen⟩ := (findIdx?_decomp c l.reverse i).1 hfi
      have hl : l = rest.reverse ++ c :: pre.reverse := by
        have h2 := congrArg List.reverse hrev
        rw [List.reverse_reverse] at h2
        rw [h2]
        simp [List.reverse_append]
      refine ⟨rest.reverse, pre.reverse, hl, by simpa using hpre, ?_⟩
      have hlen2 : l.length = rest.length + 1 + pre.length := by
        rw [hl]
        simp [List.length_append, List.length_reverse]
        omega
      simp only [List.length_reverse]
      omega
  · rintro ⟨l1, l2, hl, hpost, hlen⟩
    have hrev : l.reverse = l2.reverse ++ c :: l1.reverse := by
      rw [hl]
      simp [List.reverse_append]
    have hfi : l.reverse.findIdx? (· = c) = some l2.reverse.length :=
      (findIdx?_decomp c l.reverse l2.reverse.length).2
        ⟨l2.reverse, l1.reverse, hrev, by simpa using hpost, rfl⟩
    rw [hfi]
    have hlen2 : l.length = l1.length + 1 + l2.length := by
      rw [hl]
      simp [List.length_append]
      omega
    simp only [List.length_reverse]
    rw [show l.length - 1 - l2.length = e from by omega]

/-- C8 counterexample: characters after the closing bracket survive the
first-`[` / last-`]` slicing, so `"uint8[2]x"` parses instead of failing
(and its prefix is not even an identifier check away from `"uint8"`). -/
theorem c8_counterexample :
    Ty.tryFromName "uint8[2]x" = some (Ty.fixedArray 2 "uint8" "uint8[2]x") ∧
    primitiveLookup "uint8[2]x" = none ∧
    isIdent "uint8[2]x" = false := by decide

/-- C8 (amended): parsing succeeds exactly for primitives, identifiers,
and any string containing a `[` whose last `]` has only parseable digits
(or nothing) strictly between them — with no constraint at all on the
part before the `[` or after the last `]`. -/
theorem c8_parse_shapes (s : String) :
    (Ty.tryFromName s).isSome = true ↔
      (primitiveLookup s).isSome = true ∨ isIdent s = true ∨
      ∃ pre mid post, s.data = pre ++ '[' :: (mid ++ ']' :: post) ∧
        '[' ∉ pre ∧ ']' ∉ post ∧
        (mid = [] ∨ (parseUsize (String.mk mid)).isSome = true) := by
  unfold Ty.tryFromName
  cases hp : primitiveLookup s with
  | some t => simp [hp]
  | none =>
    cases hid : isIdent s with
    | true => simp [hid]
    | false =>
      rw [if_neg Bool.false_ne_true]
      simp only [hp, hid, Option.isSome_none, Bool.false_eq_true, false_or]
      constructor
      · intro h
        cases hfi : s.data.findIdx? (· = '[') with
        | none => rw [hfi] at h; exact Bool.noConfusion h
        | some b =>
          rw [hfi] at h
          dsimp only [] at h
          cases hfl : findLastIdx (s.data.drop b) ']' with
          | none => rw [hfl] at h; exact Bool.noConfusion h
          | some e =>
            rw [hfl] at h
            dsimp only [] at h
            obtain ⟨pre, rest, hsd, hpre, hlenb⟩ :=
              (findIdx?_decomp '[' s.data b).1 hfi
            have hdrop : s.data.drop b = '[' :: rest := by
              rw [hsd, ← hlenb]
              exact List.drop_left pre ('[' :: rest)
            obtain ⟨l1, l2, hrl, hl2, hlene⟩ :=
              (findLastIdx_decomp ']' (s.data.drop b) e).1 hfl
            rw [hdrop] at hrl
            cases l1 with
            | nil =>
              rw [List.nil_append] at hrl
              injection hrl with hx _
              exact absurd hx (by decide)
            | cons x l1' =>
              rw [List.cons_append] at hrl
              injection hrl with hx hrest
              have hdrop1 : s.data.drop (b + 1) = rest := by
                rw [hsd, ← hlenb,
                  show pre.length + 1 = (pre ++ ['[']).length from by simp,
                  show pre ++ '[' :: rest = (pre ++ ['[']) ++ rest from by simp]
                exact List.drop_left _ _
              have hsize : (s.data.drop (b + 1)).take (e - 1) = l1' := by
                rw [hdrop1, hrest, ← hlene]
                rw [show (x :: l1').length - 1 = l1'.length from by simp]
                exact List.take_left _ _
              rw [hsize] at h
              refine ⟨pre, l1', l2, by rw [hsd, hrest], hpre, hl2, ?_⟩
              by_cases hemp : l1' = []
              · exact Or.inl hemp
              · right
                rw [if_neg (by simpa using hemp)] at h
                cases hpu : parseUsize (String.mk l1') with
                | none => rw [hpu] at h; exact Bool.noConfusion h
                | some n => rfl
      · rintro ⟨pre, mid, post, hs, hpre, hpost, hmid⟩
        have hfi : s.data.findIdx? (· = '[') = some pre.length :=
          (findIdx?_decomp '[' s.data pre.length).2
            ⟨pre, mid ++ ']' :: post, hs, hpre, rfl⟩
        rw [hfi]
        dsimp only []
        have hdrop : s.data.drop pre.length = '[' :: (mid ++ ']' :: post) := by
          rw [hs]
          exact List.drop_left _ _
        have hfl : findLastIdx (s.data.drop pre.length) ']' =
            some (mid.length + 1) :=
          (findLastIdx_decomp ']' _ (mid.length + 1)).2
            ⟨'[' :: mid, post, by rw [hdrop, List.cons_append], hpost, by simp⟩
        rw [hfl]
        dsimp only []
        have hdrop1 : s.data.drop (pre.length + 1) = mid ++ ']' :: post := by
          rw [hs,
            show pre.length + 1 = (pre ++ ['[']).length from by simp,
            show pre ++ '[' :: (mid ++ ']' :: post) =
              (pre ++ ['[']) ++ (mid ++ ']' :: post) from by simp]
          exact List.drop_left _ _
        have hsize : (s.data.drop (pre.length + 1)).take (mid.length + 1 - 1) =
            mid := by
          rw [hdrop1, show mid.length + 1 - 1 = mid.length from by simp]
          exact List.take_left _ _
        rw [hsize]
        by_cases hemp : mid = []
        · rw [if_pos (by simp [hemp])]
          rfl
        · rw [if_neg (by simpa using hemp)]
          rcases hmid with h1 | h1
          · exact absurd h1 hemp
          · cases hpu : parseUsize (String.mk mid) with
            | none => rw [hpu] at h1; exact Bool.noConfusion h1
            | some n => rfl

/-- Witness for C8: `"uint8[2]x"` satisfies the decomposition, hence
parses. -/
theorem c8_parse_shapes_witness :
    (Ty.tryFromName "uint8[2]x").isSome = true :=
  (c8_parse_shapes "uint8[2]x").2 (Or.inr (Or.inr
    ⟨['u', 'i', 'n', 't', '8'], ['2'], ['x'],
      by decide, by decide, by decide, Or.inr (by decide)⟩))

end BitskiCommon

namespace BitskiCommon

theorem lookup_none_of_ne {β : Type} (s : String) (l : List (String × β))
    (hall : ∀ p ∈ l, ¬ p.1 = s) : List.lookup s l = none := by
  induction l with
  | nil => rfl
  | cons p rest ih =>
    obtain ⟨k, v⟩ := p
    simp only [List.lookup]
    rw [show (s == k) = false from
      beq_eq_false_iff_ne.2 fun h => hall (k, v) (List.mem_cons_self _ _) h.symm]
    exact ih fun p hp => hall p (List.mem_cons_of_mem _ hp)

theorem structMembersLoop_none_of_bad (m : MemberType)
    (hbad : Ty.tryFromName m.type_ = none) :
    ∀ (members : List MemberType) (visited : List String),
    m ∈ members → structMembersLoop members visited = none := by
  intro members
  induction members with
  | nil => intro visited hmem; cases hmem
  | cons m0 ms ih =>
    intro visited hmem
    unfold structMembersLoop
    by_cases hv : visited.contains m0.name
    · rw [if_pos hv]
    · rw [if_neg hv]
      rcases List.mem_cons.1 hmem with heq | hmem'
      · subst heq
        rw [show StructMemberType.tryFrom m = none from by
          unfold StructMemberType.tryFrom; rw [hbad]; rfl]
      · cases htf : StructMemberType.tryFrom m0 with
        | none => rfl
        | some mt =>
          rw [ih (m0.name :: visited) hmem']

/-- C10: one-character names are neither primitives (all primitive names
have at least four characters) nor identifiers (the regex `+` demands a
second character) nor arrays, so `try_from_name` fails; hence a struct
with a one-character name, or any member referencing one, cannot be
built. -/
theorem c10_single_char :
    (∀ s : String, s.data.length = 1 → isIdent s = false) ∧
    (∀ s : String, s.data.length = 1 → Ty.tryFromName s = none) ∧
    (∀ (s : String) (members : List MemberType), s.data.length = 1 →
        StructType.tryFromNamedStruct s members = none) ∧
    (∀ (nm : String) (members : List MemberType) (m : MemberType),
        m ∈ members → m.type_.data.length = 1 →
        StructType.tryFromNamedStruct nm members = none) := by
  have hid : ∀ s : String, s.data.length = 1 → isIdent s = false := by
    intro s h
    obtain ⟨data⟩ := s
    cases data with
    | nil => simp at h
    | cons c rest =>
      cases rest with
      | nil =>
        unfold isIdent
        simp
      | cons d rest2 => simp at h
  have htf : ∀ s : String, s.data.length = 1 → Ty.tryFromName s = none := by
    intro s h
    have hp : primitiveLookup s = none := by
      have hall : ∀ p ∈ primitiveTypes, p.1.data.length ≠ 1 := by decide
      unfold primitiveLookup
      apply lookup_none_of_ne
      intro p hpm hps
      exact hall p hpm (by rw [hps]; exact h)
    have hids := hid s h
    obtain ⟨data⟩ := s
    cases data with
    | nil => simp at h
    | cons c rest =>
      cases rest with
      | cons d rest2 => simp at h
      | nil =>
        unfold Ty.tryFromName
        rw [hp]
        dsimp only []
        rw [if_neg (by rw [hids]; exact Bool.false_ne_true)]
        by_cases hbr : c = '['
        · subst hbr
          decide
        · have hfi : List.findIdx? (· = '[') [c] = none := by
            rw [List.findIdx?_cons, if_neg (by simp [hbr]), List.findIdx?_nil]
          rw [hfi]
  refine ⟨hid, htf, ?_, ?_⟩
  · intro s members h
    unfold StructType.tryFromNamedStruct
    rw [htf s h]
  · intro nm members m hmem hlen
    have hb : Ty.tryFromName m.type_ = none := htf _ hlen
    unfold StructType.tryFromNamedStruct
    cases htn : Ty.tryFromName nm with
    | none => rfl
    | some t =>
      rw [structMembersLoop_none_of_bad m hb members [] hmem]

/-- Witness for C10 at the name `"A"`. -/
theorem c10_single_char_witness :
    isIdent "A" = false ∧
    Ty.tryFromName "A" = none ∧
    StructType.tryFromNamedStruct "A" [] = none ∧
    StructType.tryFromNamedStruct "Msg" [⟨"x", "A"⟩] = none :=
  ⟨c10_single_char.1 "A" (by decide),
   c10_single_char.2.1 "A" (by decide),
   c10_single_char.2.2.1 "A" [] (by decide),
   c10_single_char.2.2.2 "Msg" [⟨"x", "A"⟩] ⟨"x", "A"⟩ (by decide) (by decide)⟩

end BitskiCommon
